import Mathlib

/-!
# Verification of the memory-mesh conversation memory layer

A shallow embedding, in Lean 4, of the core algorithms of the
`ai_memory_layer` Python package, together with proofs settling the frozen
claims about it.

Modelling conventions, used uniformly below:

* Python `float` values are modelled as `Rat`.  The two transcendental
  helpers of the ranker (`math.sqrt` inside `cosine_similarity` and
  `math.exp` in the decay term) are real-valued; they are taken as explicit
  function parameters (`sqrt`, `decayAt`), so every theorem about the
  ranker quantifies over them and holds in particular for the genuine
  square root and exponential.
* UTC datetimes are modelled as `Int` (seconds); `timedelta(days = d)`
  becomes `d * 86400`, `timedelta(seconds = s)` becomes `s`.
* UUID primary keys are modelled as `Nat`.
* Python `None` becomes `Option.none`; functions that raise become
  `Option`-valued.
* SQLAlchemy session state is an explicit `Store` record of row lists;
  a query is a pure function of the store, a mutation returns a new store.
-/

namespace MemoryMesh

/-! ## JSON metadata values (`utils/sanitization.py`)

`JVal` models the Python values reachable inside a metadata mapping:
`str` (as a list of code points), `bool`, `int`, `float`, `None`, `list`,
`dict`, and a constructor `unsupported` for any other runtime type
(e.g. `bytes`), which `_clean` rejects. -/

inductive JVal where
  | null : JVal
  | bool (b : Bool) : JVal
  | int (n : Int) : JVal
  | float (q : Rat) : JVal
  | str (s : List Char) : JVal
  | arr (items : List JVal) : JVal
  | obj (fields : List (String × JVal)) : JVal
  | unsupported (tyName : String) : JVal

/-- The straightforward `Option`-valued traversal of a list (the list and
dict comprehensions of `_clean` fail as soon as one element fails). -/
def optTraverse (f : α → Option β) : List α → Option (List β)
  | [] => some []
  | x :: rest =>
      match f x with
      | none => none
      | some y =>
          match optTraverse f rest with
          | none => none
          | some ys => some (y :: ys)

/-- `_clean(value, depth)` from `sanitize_metadata`
(`utils/sanitization.py` lines 22-37).  The Python recursion carries the
current `depth` and rejects every value once `depth > max_depth`; here the
same counter is carried as the remaining budget
`fuel = max_depth + 1 - depth`, so `fuel = 0` is exactly `depth >
max_depth` and a child at `depth + 1` runs on `fuel - 1`.  A mapping with
more than `max_items` keys is rejected, then its values are cleaned one
level deeper; likewise for a sequence; a string is truncated to
`max_string_length` (for a short string `value[:n] = value`, so truncation
is uniformly `List.take`); the other scalars pass through; any unsupported
runtime type (e.g. `bytes`) is rejected. -/
def jclean (maxItems maxStringLength : Nat) : Nat → JVal → Option JVal
  | 0, _ => none
  | _ + 1, .null => some .null
  | _ + 1, .bool b => some (.bool b)
  | _ + 1, .int n => some (.int n)
  | _ + 1, .float q => some (.float q)
  | _ + 1, .str s => some (.str (s.take maxStringLength))
  | fuel + 1, .arr items =>
      if maxItems < items.length then none
      else
        match optTraverse (jclean maxItems maxStringLength fuel) items with
        | some cleaned => some (.arr cleaned)
        | none => none
  | fuel + 1, .obj fields =>
      if maxItems < fields.length then none
      else
        match optTraverse
            (fun p =>
              match jclean maxItems maxStringLength fuel p.2 with
              | some c => some (p.1, c)
              | none => none) fields with
        | some cleaned => some (.obj cleaned)
        | none => none
  | _ + 1, .unsupported _ => none

/-- `sanitize_metadata(metadata, max_depth, max_items, max_string_length)`
(`utils/sanitization.py` lines 13-42): run `_clean` on the top-level dict
at `depth = 1` (budget `max_depth + 1 - 1 = max_depth`); the result of
cleaning a mapping is a mapping, so the final `isinstance(cleaned, dict)`
guard always passes.  Keys of a metadata mapping are strings, so the
`str(k)` in the dict comprehension is the identity. -/
def sanitize_metadata (metadata : List (String × JVal))
    (maxDepth : Nat := 4) (maxItems : Nat := 50)
    (maxStringLength : Nat := 2048) : Option (List (String × JVal)) :=
  match jclean maxItems maxStringLength maxDepth (.obj metadata) with
  | some (.obj fields) => some fields
  | _ => none

/-! ## Data model (`models/memory.py`, `models/user.py`) -/

/-- The `messages` row type (`models/memory.py` lines 40-58). -/
structure Message where
  id : Nat
  tenant_id : String
  conversation_id : String
  role : String
  content : String
  message_metadata : List (String × JVal)
  importance_score : Option Rat
  embedding : Option (List Rat)
  embedding_status : String
  created_at : Int
  updated_at : Int
  archived : Bool

/-- The `archived_messages` row type (`models/memory.py` lines 61-72);
`archived_at` carries the `utcnow` server default of the insert. -/
structure ArchivedMessage where
  id : Nat
  tenant_id : String
  conversation_id : String
  role : String
  content : String
  message_metadata : List (String × JVal)
  importance_score : Option Rat
  archived_at : Int
  archive_reason : String

/-- The `retention_policies` row type (`models/memory.py` lines 75-87). -/
structure RetentionPolicy where
  tenant_id : String
  max_age_days : Int
  importance_threshold : Rat
  max_items : Option Int
  delete_after_days : Int
  updated_at : Int
deriving DecidableEq, Repr

/-- The `embedding_jobs` row type (`models/memory.py` lines 90-105). -/
structure EmbeddingJob where
  id : Nat
  message_id : Nat
  status : String
  attempts : Nat
  last_error : Option String
  updated_at : Int
deriving DecidableEq, Repr

/-- The JSON `conditions` column of a retention rule, read through
`conditions.get(...)` in `AdvancedRetentionService._apply_rule`:
the keys the code looks up, each optional. -/
structure RuleFilters where
  role : Option String
  min_importance : Option Rat
  max_importance : Option Rat
deriving DecidableEq, Repr

/-- Optional condition keys consulted by `_apply_rule`. -/
structure RuleConditions where
  days : Option Int
  importance_threshold : Option Rat
  max_items : Option Nat
  filters : Option RuleFilters
deriving DecidableEq, Repr

/-- The `retention_rules` row type (`models/memory.py` lines 108-134). -/
structure RetentionRule where
  id : Nat
  tenant_id : String
  name : String
  rule_type : String
  conditions : RuleConditions
  action : String
  priority : Int
  enabled : Bool
  last_applied : Option Int
deriving DecidableEq, Repr

/-- The `conversations` row fields used by retention
(`models/user.py` lines 101-114). -/
structure Conversation where
  id : String
  tenant_id : String
  last_message_at : Option Int
deriving DecidableEq, Repr

/-- The persisted state: one list of rows per table touched by the
claims. -/
structure Store where
  messages : List Message
  archive : List ArchivedMessage
  policies : List RetentionPolicy
  rules : List RetentionRule
  conversations : List Conversation

/-! ## Ranker (`services/retrieval.py`) -/

/-- A scored candidate (`RetrievedMemory` dataclass, lines 25-30). -/
structure RetrievedMemory where
  message : Message
  score : Rat
  similarity : Rat
  decay : Rat

/-- Ranker weights after the constructor's renormalisation
(`MemoryRetriever.__init__`, lines 36-46). -/
structure MemoryRetriever where
  similarity_weight : Rat
  importance_weight : Rat
  decay_weight : Rat
deriving DecidableEq, Repr

/-- `MemoryRetriever(similarity_weight, importance_weight, decay_weight)`:
each weight is divided by their total. -/
def MemoryRetriever.mk_normalised (s i d : Rat) : MemoryRetriever :=
  ⟨s / (s + i + d), i / (s + i + d), d / (s + i + d)⟩

/-- `cosine_similarity(a, b)` (lines 14-22), with `math.sqrt` passed in as
`sqrt`: 0 when either list is empty or lengths differ; 0 when either norm
is 0; otherwise `dot / (norm_a * norm_b)`. -/
def cosine_similarity (sqrt : Rat → Rat) (a b : List Rat) : Rat :=
  if a = [] ∨ b = [] ∨ a.length ≠ b.length then 0
  else
    let dot := ((a.zip b).map fun p => p.1 * p.2).sum
    let norm_a := sqrt (a.map fun x => x * x).sum
    let norm_b := sqrt (b.map fun y => y * y).sum
    if norm_a = 0 ∨ norm_b = 0 then 0 else dot / (norm_a * norm_b)

/-- The loop body of `rank` (lines 57-77) over one candidate: skip a
candidate with a null embedding, otherwise score it.  `sim` abstracts
`cosine_similarity(query_embedding, ·)` and `decayAt` abstracts
`exp(-age_seconds / (60*60*24*7))` as a function of the age
`now - created_at`; `importance_score or 0.0` is `Option.getD 0`. -/
def scoreCandidate (r : MemoryRetriever) (sim : List Rat → Rat)
    (decayAt : Int → Rat) (now : Int) (m : Message) :
    Option RetrievedMemory :=
  match m.embedding with
  | none => none
  | some emb =>
      let similarity := sim emb
      let decay := decayAt (now - m.created_at)
      let importance := m.importance_score.getD 0
      let score := similarity * r.similarity_weight
        + importance * r.importance_weight
        + decay * r.decay_weight
      some ⟨m, score, similarity, decay⟩

/-- The `scored` list built by the `for message in candidates` loop. -/
def scoredList (r : MemoryRetriever) (sim : List Rat → Rat)
    (decayAt : Int → Rat) (now : Int) (candidates : List Message) :
    List RetrievedMemory :=
  candidates.filterMap (scoreCandidate r sim decayAt now)

/-- The comparator realised by
`scored.sort(key=lambda item: item.score, reverse=True)` (line 78):
CPython's stable sort in descending-key order keeps `a` before `b`
exactly when `b.score ≤ a.score`. -/
def rankLE (a b : RetrievedMemory) : Bool :=
  b.score ≤ a.score

/-- `MemoryRetriever.rank` (lines 48-79): score the candidates with a
non-null embedding, stable-sort by score descending, return the first
`top_k`. -/
def MemoryRetriever.rank (r : MemoryRetriever) (sim : List Rat → Rat)
    (decayAt : Int → Rat) (now : Int) (candidates : List Message)
    (top_k : Nat) : List RetrievedMemory :=
  ((scoredList r sim decayAt now candidates).mergeSort rankLE).take top_k

/-! ## Repository (`repositories/memory_repository.py`) -/

namespace MemoryRepository

/-- The `WHERE` clause of `claim_embedding_jobs` (lines 144-151):
`status = pending ∨ (status = failed ∧ attempts < max_attempts ∧
updated_at ≤ retry_cutoff)`. -/
def claimEligible (max_attempts : Nat) (retry_cutoff : Int)
    (j : EmbeddingJob) : Bool :=
  j.status == "pending"
    || (j.status == "failed" && j.attempts < max_attempts
        && j.updated_at ≤ retry_cutoff)

/-- `ORDER BY updated_at ASC` on embedding jobs. -/
def jobLE (a b : EmbeddingJob) : Bool :=
  a.updated_at ≤ b.updated_at

/-- The rows selected by the claim query: eligible jobs ordered by
`updated_at` ascending, capped at `limit`. -/
def claimSelection (jobs : List EmbeddingJob) (limit max_attempts : Nat)
    (retry_backoff_seconds now : Int) : List EmbeddingJob :=
  (((jobs.filter (claimEligible max_attempts (now - retry_backoff_seconds))).mergeSort
    jobLE).take limit)

/-- The per-row mutation of the claim loop (lines 159-162):
`status = running`, `attempts += 1`, `updated_at = now`. -/
def markRunning (now : Int) (j : EmbeddingJob) : EmbeddingJob :=
  { j with status := "running", attempts := j.attempts + 1, updated_at := now }

/-- `claim_embedding_jobs(limit, max_attempts, retry_backoff_seconds)`
(lines 132-164) over the `embedding_jobs` table: select the eligible rows
ordered by `updated_at ASC` limited to `limit`, mark each selected row
running with one more attempt at time `now`, and return the claimed rows
together with the updated table.  The Python loop mutates the selected ORM
rows in place; rows are identified by their primary key `id`. -/
def claim_embedding_jobs (jobs : List EmbeddingJob)
    (limit max_attempts : Nat) (retry_backoff_seconds now : Int) :
    List EmbeddingJob × List EmbeddingJob :=
  let selected := claimSelection jobs limit max_attempts retry_backoff_seconds now
  let ids := selected.map (fun j => j.id)
  (selected.map (markRunning now),
   jobs.map (fun j => if ids.contains j.id then markRunning now j else j))

/-- `load_policy(tenant_id)` (lines 224-229): the tenant's policy row if
present (`tenant_id` is unique on `retention_policies`). -/
def load_policy (s : Store) (tenant_id : String) : Option RetentionPolicy :=
  s.policies.find? (fun p => p.tenant_id == tenant_id)

/-- `upsert_retention_policy(...)` (lines 193-222): insert a new policy
row when the tenant has none, otherwise overwrite the four fields and
touch `updated_at`. -/
def upsert_retention_policy (s : Store) (tenant_id : String)
    (max_age_days : Int) (importance_threshold : Rat)
    (max_items : Option Int) (delete_after_days : Int) (now : Int) :
    RetentionPolicy × Store :=
  match load_policy s tenant_id with
  | none =>
      let policy : RetentionPolicy :=
        ⟨tenant_id, max_age_days, importance_threshold, max_items,
          delete_after_days, now⟩
      (policy, { s with policies := s.policies ++ [policy] })
  | some _ =>
      let upd := fun (p : RetentionPolicy) =>
        if p.tenant_id == tenant_id then
          { p with max_age_days := max_age_days,
                   importance_threshold := importance_threshold,
                   max_items := max_items,
                   delete_after_days := delete_after_days,
                   updated_at := now }
        else p
      let policies := s.policies.map upd
      ((policies.find? (fun p => p.tenant_id == tenant_id)).getD
        ⟨tenant_id, max_age_days, importance_threshold, max_items,
          delete_after_days, now⟩,
       { s with policies := policies })

/-- `archive_candidates(tenant_id, older_than_days, importance_threshold)`
(lines 231-249): unarchived rows of the tenant with
`importance_score ≤ threshold ∨ created_at ≤ now - older_than_days`.
SQL three-valued logic makes `importance_score ≤ threshold` false on a
null score. -/
def archive_candidates (s : Store) (tenant_id : String)
    (older_than_days : Int) (importance_threshold : Rat) (now : Int) :
    List Message :=
  let cutoff := now - older_than_days * 86400
  s.messages.filter fun m =>
    m.tenant_id == tenant_id && !m.archived
      && ((match m.importance_score with
            | some i => decide (i ≤ importance_threshold)
            | none => false)
          || decide (m.created_at ≤ cutoff))

/-- The `ArchivedMessage(...)` twin built by `move_to_archive`
(lines 256-265); `archived_at` takes the `utcnow` column default. -/
def toArchived (now : Int) (reason : String) (m : Message) :
    ArchivedMessage :=
  ⟨m.id, m.tenant_id, m.conversation_id, m.role, m.content,
    m.message_metadata, m.importance_score, now, reason⟩

/-- `move_to_archive(messages, reason)` (lines 251-270): for EVERY message
of the argument list, unconditionally `session.add` an ArchivedMessage
twin and set `archived = true` on the message row; return the count.
There is no existence check in this repository method. -/
def move_to_archive (s : Store) (messages : List Message)
    (reason : String) (now : Int) : Nat × Store :=
  let ids := messages.map (fun m => m.id)
  (messages.length,
   { s with
      archive := s.archive ++ messages.map (toArchived now reason),
      messages := s.messages.map (fun m =>
        if ids.contains m.id then { m with archived := true } else m) })

/-- `delete_archived(older_than_days, tenant_id)` (lines 272-289): delete
(and count) the tenant's archived rows with
`archived_at ≤ now - older_than_days * 86400`. -/
def delete_archived (s : Store) (older_than_days : Int)
    (tenant_id : String) (now : Int) : Nat × Store :=
  let cutoff := now - older_than_days * 86400
  let doomed := fun (a : ArchivedMessage) =>
    a.tenant_id == tenant_id && decide (a.archived_at ≤ cutoff)
  ((s.archive.filter doomed).length,
   { s with archive := s.archive.filter (fun a => !doomed a) })

/-- `list_tenants()` (lines 296-299): `SELECT DISTINCT tenant_id FROM
messages`, keeping the first occurrence of each tenant. -/
def list_tenants (s : Store) : List String :=
  (s.messages.map (fun m => m.tenant_id)).eraseDups

end MemoryRepository

/-! ## Circuit breaker (`services/circuit_breaker.py`) -/

/-- The three breaker states; `open` is spelled `opened` (`open` is a Lean
keyword). -/
inductive CBState where
  | closed : CBState
  | opened : CBState
  | halfOpen : CBState
deriving DecidableEq, Repr

/-- The `CircuitBreaker` object (lines 20-36): configuration plus mutable
state. -/
structure CircuitBreaker where
  failure_threshold : Nat
  recovery_time : Int
  half_open_successes : Nat
  state : CBState
  failure_count : Nat
  success_count : Nat
  next_attempt_at : Int
deriving DecidableEq, Repr

/-- `__init__` (lines 23-36): `state = closed`, both counters 0,
`next_attempt_at = now`. -/
def CircuitBreaker.init (failure_threshold : Nat) (recovery_time : Int)
    (half_open_successes : Nat) (now : Int) : CircuitBreaker :=
  ⟨failure_threshold, recovery_time, half_open_successes,
    .closed, 0, 0, now⟩

/-- `_open` (lines 67-70): go to `open` and schedule the next probe at
`now + recovery_time`. -/
def CircuitBreaker.openNow (cb : CircuitBreaker) (now : Int) :
    CircuitBreaker :=
  { cb with state := .opened, next_attempt_at := now + cb.recovery_time }

/-- `_close` (lines 72-76): go to `closed` and clear both counters. -/
def CircuitBreaker.close (cb : CircuitBreaker) : CircuitBreaker :=
  { cb with state := .closed, failure_count := 0, success_count := 0 }

/-- `_record_success` (lines 52-59): in `half_open` count the success and
close at `half_open_successes`; in any other state clear both counters. -/
def CircuitBreaker.recordSuccess (cb : CircuitBreaker) : CircuitBreaker :=
  if cb.state = .halfOpen then
    let cb := { cb with success_count := cb.success_count + 1 }
    if cb.half_open_successes ≤ cb.success_count then cb.close else cb
  else { cb with success_count := 0, failure_count := 0 }

/-- `_record_failure` (lines 61-65): count the failure, clear the success
streak, and open at `failure_threshold`. -/
def CircuitBreaker.recordFailure (cb : CircuitBreaker) (now : Int) :
    CircuitBreaker :=
  let cb := { cb with failure_count := cb.failure_count + 1,
                      success_count := 0 }
  if cb.failure_threshold ≤ cb.failure_count then cb.openNow now else cb

/-- What a `call` did: short-circuited without invoking the wrapped
function, or invoked it and saw it succeed / raise. -/
inductive CallOutcome where
  | circuitOpen : CallOutcome
  | success : CallOutcome
  | failure : CallOutcome
deriving DecidableEq, Repr

/-- `CircuitBreaker.call(func, ...)` (lines 38-50) at time `now`, where
`ok` tells whether the wrapped `func` would succeed if invoked: an open
breaker before `next_attempt_at` raises `CircuitOpenError` without
touching `func`; an open breaker at or past `next_attempt_at` first moves
to `half_open`; then `func` runs and the outcome is recorded (a failure is
recorded and re-raised). -/
def CircuitBreaker.call (cb : CircuitBreaker) (now : Int) (ok : Bool) :
    CallOutcome × CircuitBreaker :=
  if cb.state = .opened ∧ now < cb.next_attempt_at then
    (.circuitOpen, cb)
  else
    let cb1 := if cb.state = .opened then { cb with state := .halfOpen } else cb
    if ok then (.success, cb1.recordSuccess)
    else (.failure, cb1.recordFailure now)

/-- The breaker states reachable from a fresh
`CircuitBreaker(failure_threshold, recovery_time, half_open_successes)`
by any sequence of calls at any times. -/
inductive CircuitBreaker.Reachable (ft : Nat) (rt : Int) (hos : Nat) :
    CircuitBreaker → Prop where
  | init (now : Int) :
      CircuitBreaker.Reachable ft rt hos (CircuitBreaker.init ft rt hos now)
  | step (cb : CircuitBreaker) (now : Int) (ok : Bool) :
      CircuitBreaker.Reachable ft rt hos cb →
      CircuitBreaker.Reachable ft rt hos (cb.call now ok).2

/-- `n` consecutive successful calls at time `now`. -/
def CircuitBreaker.iterateSuccess (cb : CircuitBreaker) (now : Int) :
    Nat → CircuitBreaker
  | 0 => cb
  | n + 1 => CircuitBreaker.iterateSuccess (cb.call now true).2 now n

/-- The inductive invariant of the breaker: the configuration fields are
constant, an open breaker has reached the failure threshold with no
success streak, and a half-open breaker has reached the threshold with a
success streak still below `half_open_successes`. -/
def BreakerInv (ft : Nat) (rt : Int) (hos : Nat)
    (cb : CircuitBreaker) : Prop :=
  cb.failure_threshold = ft ∧ cb.recovery_time = rt
  ∧ cb.half_open_successes = hos
  ∧ (cb.state = .opened → ft ≤ cb.failure_count ∧ cb.success_count = 0)
  ∧ (cb.state = .halfOpen → ft ≤ cb.failure_count ∧ cb.success_count < hos)

/-! ## Embedding service (`services/embedding.py`) -/

/-- `CircuitBreakerEmbeddingService.embed(text)` (lines 55-62), with the
injected providers as functions: `primary text = some v` when the primary
provider would return `v`, `none` when it would raise; `fallback` is the
injected fallback provider (`MockEmbeddingService` by default, a
deterministic total function of the text).  The primary runs through
`breaker.call`; a `CircuitOpenError` or any provider exception is caught
and answered with the fallback vector. -/
def cbEmbed (primary : String → Option (List Rat))
    (fallback : String → List Rat) (cb : CircuitBreaker) (now : Int)
    (text : String) : List Rat × CircuitBreaker :=
  match cb.call now (primary text).isSome, primary text with
  | (.success, cb1), some v => (v, cb1)
  | (_, cb1), _ => (fallback text, cb1)

/-! ## Retention services (`services/retention.py`,
`services/advanced_retention.py`) -/

/-- `RetentionResult` dataclass (`services/retention.py` lines 13-16). -/
structure RetentionResult where
  archived : Nat
  deleted : Nat
deriving DecidableEq, Repr

/-- The settings consulted by `RetentionService.run` when it materialises
a missing policy (`config.py` lines 91-95; defaults 30, 0.35, 90). -/
structure Settings where
  retention_max_age_days : Int
  retention_importance_threshold : Rat
  retention_delete_after_days : Int
deriving DecidableEq, Repr

/-- `RetentionService.run(tenant_id, actions, dry_run)`
(`services/retention.py` lines 25-69).  `actions or {"archive",
"delete"}` also replaces an explicit empty set by the default.  A missing
policy is created from settings defaults (and committed - the method ends
with `session.commit()` in every case, `dry_run` included).  Candidates
are computed from the policy; archiving runs only when not dry-run, the
candidate list is non-empty and `"archive"` was requested; deletion only
when not dry-run and `"delete"` was requested. -/
def RetentionService.run (settings : Settings) (s : Store)
    (tenant_id : String) (actions : Option (List String)) (dry_run : Bool)
    (now : Int) : RetentionResult × Store :=
  let acts := match actions with
    | some (a :: rest) => a :: rest
    | _ => ["archive", "delete"]
  let (policy, s1) := match MemoryRepository.load_policy s tenant_id with
    | some p => (p, s)
    | none =>
        MemoryRepository.upsert_retention_policy s tenant_id
          settings.retention_max_age_days
          settings.retention_importance_threshold
          none settings.retention_delete_after_days now
  let candidates := MemoryRepository.archive_candidates s1 tenant_id
    policy.max_age_days policy.importance_threshold now
  let (archived, s2) :=
    if !dry_run && !candidates.isEmpty && acts.contains "archive" then
      MemoryRepository.move_to_archive s1 candidates "policy" now
    else (0, s1)
  let (deleted, s3) :=
    if !dry_run && acts.contains "delete" then
      MemoryRepository.delete_archived s2 policy.delete_after_days
        tenant_id now
    else (0, s2)
  (⟨if !dry_run && acts.contains "archive" then archived else 0,
    if !dry_run && acts.contains "delete" then deleted else 0⟩, s3)

namespace AdvancedRetentionService

/-- The result dict of `apply_retention_rules`
(`services/advanced_retention.py` lines 81-89), without the wall-clock
`execution_time_seconds` entry. -/
structure Result where
  rules_applied : List String
  messages_archived : Nat
  messages_deleted : Nat
  messages_moved_to_cold : Nat
  dry_run : Bool
deriving DecidableEq, Repr

/-- The loop of `_archive_messages` (lines 213-233): walk the messages,
skipping any whose ArchivedMessage twin already exists (the query sees the
twins added earlier in the same loop, through autoflush); for the others,
add the twin and record the id to flip `archived`.  Returns the grown
archive, the ids of the newly archived messages, and the count. -/
def archiveLoop (now : Int) (reason : String) :
    List Message → List ArchivedMessage →
    List ArchivedMessage × List Nat × Nat
  | [], archive => (archive, [], 0)
  | m :: rest, archive =>
      if archive.any (fun a => a.id == m.id) then
        archiveLoop now reason rest archive
      else
        let (archive2, ids, c) :=
          archiveLoop now reason rest
            (archive ++ [MemoryRepository.toArchived now reason m])
        (archive2, m.id :: ids, c + 1)

/-- `AdvancedRetentionService._archive_messages(messages, reason)`
(lines 206-236): the archive loop above, then `archived = true` on the
newly twinned message rows. -/
def archiveMessages (s : Store) (messages : List Message) (reason : String)
    (now : Int) : Nat × Store :=
  let res := archiveLoop now reason messages s.archive
  (res.2.2,
   { s with
      archive := res.1,
      messages := s.messages.map (fun m =>
        if res.2.1.contains m.id then { m with archived := true }
        else m) })

/-- `AdvancedRetentionService._delete_messages(messages)`
(lines 238-250): delete every listed row, return the count. -/
def deleteMessages (s : Store) (messages : List Message) : Nat × Store :=
  let ids := messages.map (fun m => m.id)
  (messages.length,
   { s with messages := s.messages.filter (fun m => !ids.contains m.id) })

/-- `Message.tenant_id == tenant ∧ ¬archived`, the base query of
`_apply_rule` (lines 103-106). -/
def baseFilter (tenant_id : String) (m : Message) : Bool :=
  m.tenant_id == tenant_id && !m.archived

/-- `ORDER BY created_at ASC` for the `max_items` rule. -/
def createdLE (a b : Message) : Bool :=
  a.created_at ≤ b.created_at

/-- Candidate selection of `_apply_rule` (lines 102-176), per
`rule_type`; `none` models the early `return {archived: 0, ...}` of the
`conversation_age` and `max_items` branches.  Null comparisons follow SQL:
`importance_score <= threshold` and `importance_score >= v` are false on a
null score; the `importance` and `conversation_age` branches admit null
explicitly via `is_(None)` / `or_`. -/
def ruleCandidates (s : Store) (rule : RetentionRule) (tenant_id : String)
    (now : Int) : Option (List Message) :=
  let base := s.messages.filter (baseFilter tenant_id)
  if rule.rule_type == "age" then
    let days := rule.conditions.days.getD 30
    some (base.filter (fun m => decide (m.created_at ≤ now - days * 86400)))
  else if rule.rule_type == "importance" then
    let threshold := rule.conditions.importance_threshold.getD (3 / 10)
    some (base.filter (fun m =>
      match m.importance_score with
      | some i => decide (i ≤ threshold)
      | none => true))
  else if rule.rule_type == "conversation_age" then
    let days := rule.conditions.days.getD 90
    let cutoff := now - days * 86400
    let inactive := (s.conversations.filter (fun c =>
        c.tenant_id == tenant_id
          && (match c.last_message_at with
              | some t => decide (t ≤ cutoff)
              | none => true))).map (fun c => c.id)
    if inactive.isEmpty then none
    else some (base.filter (fun m => inactive.contains m.conversation_id))
  else if rule.rule_type == "max_items" then
    let max_items := rule.conditions.max_items.getD 1000
    let total := base.length
    if max_items < total then
      some ((base.mergeSort createdLE).take (total - max_items))
    else none
  else if rule.rule_type == "custom" then
    match rule.conditions.filters with
    | some f =>
        some
          (((base.filter (fun m =>
                match f.role with
                | some r => m.role == r
                | none => true)).filter (fun m =>
                match f.min_importance with
                | some v =>
                    match m.importance_score with
                    | some i => decide (v ≤ i)
                    | none => false
                | none => true)).filter (fun m =>
                match f.max_importance with
                | some v =>
                    match m.importance_score with
                    | some i => decide (i ≤ v)
                    | none => false
                | none => true))
    | none => some base
  else some base

/-- Per-rule counts returned by `_apply_rule`. -/
structure RuleOutcome where
  archived : Nat
  deleted : Nat
  moved_to_cold : Nat
deriving DecidableEq, Repr

/-- `_apply_rule(rule, tenant_id, dry_run)` (lines 91-204): select the
candidates, then perform the rule's action; under `dry_run` every action
only reports `len(messages)` and mutates nothing; an unknown action
reports zeros. -/
def applyRule (s : Store) (rule : RetentionRule) (tenant_id : String)
    (dry_run : Bool) (now : Int) : RuleOutcome × Store :=
  match ruleCandidates s rule tenant_id now with
  | none => (⟨0, 0, 0⟩, s)
  | some messages =>
      if messages.isEmpty then (⟨0, 0, 0⟩, s)
      else if rule.action == "archive" then
        if !dry_run then
          let (c, s2) := archiveMessages s messages rule.name now
          (⟨c, 0, 0⟩, s2)
        else (⟨messages.length, 0, 0⟩, s)
      else if rule.action == "delete" then
        if !dry_run then
          let (c, s2) := deleteMessages s messages
          (⟨0, c, 0⟩, s2)
        else (⟨0, messages.length, 0⟩, s)
      else if rule.action == "move_to_cold_storage" then
        if !dry_run then
          let (c, s2) :=
            archiveMessages s messages
              (String.append "cold_storage:" rule.name) now
          (⟨0, 0, c⟩, s2)
        else (⟨0, 0, messages.length⟩, s)
      else (⟨0, 0, 0⟩, s)

/-- `ORDER BY priority ASC` on retention rules. -/
def ruleLE (a b : RetentionRule) : Bool :=
  a.priority ≤ b.priority

/-- One iteration of the `for rule in rules` loop of
`apply_retention_rules` (lines 59-76): apply the rule, accumulate its
name and counts, and, when not a dry run, stamp `rule.last_applied = now`
on the rule row.  (The surrounding `try/except` only logs; the model's
`applyRule` is total, so the handler is unreachable.) -/
def applyRuleStep (tenant_id : String) (dry_run : Bool) (now : Int)
    (acc : Result × Store) (rule : RetentionRule) : Result × Store :=
  let (res, st) := acc
  let (out, st2) := applyRule st rule tenant_id dry_run now
  let st3 :=
    if !dry_run then
      { st2 with rules := st2.rules.map (fun r =>
          if r.id == rule.id then { r with last_applied := some now }
          else r) }
    else st2
  ({ res with
      rules_applied := res.rules_applied ++ [rule.name],
      messages_archived := res.messages_archived + out.archived,
      messages_deleted := res.messages_deleted + out.deleted,
      messages_moved_to_cold := res.messages_moved_to_cold + out.moved_to_cold },
   st3)

/-- `apply_retention_rules(tenant_id, dry_run)` (lines 22-89): load the
tenant's enabled rules ordered by priority; with no rules return zeros;
otherwise fold the per-rule step over them.  (`session.commit()` runs
only when not a dry run; commitment is implicit in returning the new
store.) -/
def apply_retention_rules (s : Store) (tenant_id : String) (dry_run : Bool)
    (now : Int) : Result × Store :=
  let rules := (s.rules.filter (fun r =>
    r.tenant_id == tenant_id && r.enabled)).mergeSort ruleLE
  if rules.isEmpty then (⟨[], 0, 0, 0, dry_run⟩, s)
  else rules.foldl (applyRuleStep tenant_id dry_run now) (⟨[], 0, 0, 0, dry_run⟩, s)

end AdvancedRetentionService

/-! ## Retention scheduler (`scheduler.py`) -/

/-- The scheduler's configuration as resolved by `__init__`
(lines 20-32). -/
structure RetentionScheduler where
  interval : Int
  tenants : List String
deriving DecidableEq, Repr

/-- The guard of `start()` (lines 34-40): no task is spawned - the
scheduler is disabled - when `interval ≤ 0` or the tenant list is
empty. -/
def RetentionScheduler.startsTask (sched : RetentionScheduler) : Bool :=
  !(decide (sched.interval ≤ 0) || sched.tenants.isEmpty)

/-- `run_once()` (lines 59-66): if the tenant list is empty do nothing;
otherwise, for each configured tenant entry in order, open a session and
call `RetentionService.run(session, tenant_id=tenant)` - with `actions`
and `dry_run` left at their defaults (`None` / `False`).  Each tenant
entry is passed literally; returns the final store and the list of
`tenant_id` values the service was invoked with. -/
def RetentionScheduler.run_once (sched : RetentionScheduler)
    (settings : Settings) (s : Store) (now : Int) : Store × List String :=
  if sched.tenants.isEmpty then (s, [])
  else
    sched.tenants.foldl
      (fun acc t =>
        let (_, s2) := RetentionService.run settings acc.1 t none false now
        (s2, acc.2 ++ [t]))
      (s, [])

/-! ## Rate limiter (`rate_limit.py`) -/

/-- `int(...)` on a run of decimal digit characters. -/
def digitRunToNat (ds : List Char) : Nat :=
  ds.foldl (fun acc c => acc * 10 + (c.toNat - 48)) 0

/-- The unit table of `RateLimiter._parse` (line 30). -/
def rateUnitSeconds (unit : List Char) : Option Nat :=
  if unit = "second".toList then some 1
  else if unit = "minute".toList then some 60
  else if unit = "hour".toList then some 3600
  else none

/-- `RateLimiter._parse(limit)` (lines 24-31), over the code points of
the limit string (Python strings are sequences of code points):
`limit.replace(" ", "")` removes the space characters; the full match of
`(\d+)/(second|minute|hour)` demands exactly one slash separating a
non-empty digit run from one of the three unit words; the result is
`(count, float(seconds))`. -/
def RateLimiter.parse (limit : List Char) : Option (Nat × Rat) :=
  let cleaned := limit.filter (fun c => c ≠ ' ')
  match cleaned.splitOn '/' with
  | [countStr, unitStr] =>
      if countStr ≠ [] ∧ countStr.all Char.isDigit then
        match rateUnitSeconds unitStr with
        | some secs => some (digitRunToNat countStr, (secs : Rat))
        | none => none
      else none
  | _ => none

/-- `RateLimiter.hit` on one key's deque (lines 33-41): pop entries older
than the window from the front (`now - q[0] > window`), refuse when the
queue still holds `max_calls` entries, otherwise append `now` and
admit. -/
def hitQueue (max_calls : Nat) (window : Rat) (q : List Rat) (now : Rat) :
    Bool × List Rat :=
  let q := q.dropWhile (fun t => window < now - t)
  if max_calls ≤ q.length then (false, q)
  else (true, q ++ [now])

/-- `self.calls[identifier]` on a `defaultdict(deque)`: the stored queue,
or empty. -/
def getQueue (calls : List (String × List Rat)) (key : String) :
    List Rat :=
  match calls.lookup key with
  | some q => q
  | none => []

/-- Write a key's queue back into the per-key map. -/
def setQueue : List (String × List Rat) → String → List Rat →
    List (String × List Rat)
  | [], key, q => [(key, q)]
  | (k, v) :: rest, key, q =>
      if k == key then (k, q) :: rest else (k, v) :: setQueue rest key q

/-- A `RateLimiter` instance: the parsed `(max_calls, window)` plus the
per-key call log. -/
structure RateLimiter where
  max_calls : Nat
  window : Rat
  calls : List (String × List Rat)

/-- `RateLimiter.hit(identifier)` (lines 33-41) at time `now`
(`time.monotonic()`). -/
def RateLimiter.hit (rl : RateLimiter) (identifier : String) (now : Rat) :
    Bool × RateLimiter :=
  let (ok, q2) := hitQueue rl.max_calls rl.window
    (getQueue rl.calls identifier) now
  (ok, { rl with calls := setQueue rl.calls identifier q2 })

/-- Run a sequence of `hit` calls on one key's queue, returning each
call's `(admitted, time)`. -/
def hitTrace (max_calls : Nat) (window : Rat) (q : List Rat) :
    List Rat → List (Bool × Rat)
  | [] => []
  | t :: rest =>
      let (ok, q2) := hitQueue max_calls window q t
      (ok, t) :: hitTrace max_calls window q2 rest

/-- Run a sequence of `hit(key)` calls against a limiter, returning each
call's `(admitted, key, time)`. -/
def runLimiter (rl : RateLimiter) :
    List (String × Rat) → List (Bool × String × Rat)
  | [] => []
  | (key, t) :: rest =>
      let (ok, rl2) := rl.hit key t
      (ok, key, t) :: runLimiter rl2 rest

/-- The number of admitted calls of a one-key trace whose time falls in
the closed interval `[a, b]`. -/
def admittedIn (l : List (Bool × Rat)) (a b : Rat) : Nat :=
  (l.filter (fun e => e.1 && decide (a ≤ e.2) && decide (e.2 ≤ b))).length

/-! # Theorems -/

/-! Concrete inputs for the tie-break analysis of the ranker (claim C7):
two candidates that differ only in `id` and `content`, listed with the
larger id first.  They share `created_at`, importance and the embedding,
so they receive literally identical scores under any similarity and decay
functions. -/

/-- Candidate with id 2, listed first. -/
def cexMsg1 : Message :=
  ⟨2, "t1", "c1", "user", "hello", [], none, some [0, 0], "completed",
    0, 0, false⟩

/-- Candidate with id 1, listed second. -/
def cexMsg2 : Message :=
  ⟨1, "t1", "c1", "user", "world", [], none, some [0, 0], "completed",
    0, 0, false⟩

/-- The default retriever weights (0.6, 0.3, 0.1), renormalised. -/
def cexRetriever : MemoryRetriever :=
  MemoryRetriever.mk_normalised (6 / 10) (3 / 10) (1 / 10)

/-- `cosine_similarity(query_embedding, ·)` for the query `[1, 0]`; at the
candidates' zero embedding the norm guard returns 0 before any square
root matters, so the instantiation of `sqrt` is irrelevant here. -/
def cexSim : List Rat → Rat :=
  cosine_similarity (fun x => x) [1, 0]

/-- A decay function; both candidates share `created_at`, so any function
gives them the same decay. -/
def cexDecay : Int → Rat := fun _ => 1

/-- The ranked output on the two tied candidates. -/
def cexRank : List RetrievedMemory :=
  cexRetriever.rank cexSim cexDecay 0 [cexMsg1, cexMsg2] 2

/-- The score both candidates receive: their embedding, importance and
age coincide, so the score expression is literally the same. -/
def cexScore : Rat :=
  cexSim [0, 0] * cexRetriever.similarity_weight
    + 0 * cexRetriever.importance_weight
    + cexDecay 0 * cexRetriever.decay_weight

/-- The scored entry for a tied candidate. -/
def cexEntry (m : Message) : RetrievedMemory :=
  ⟨m, cexScore, cexSim [0, 0], cexDecay 0⟩

/-! ## Ranker: C1, C7 -/

theorem rankLE_trans : ∀ a b c : RetrievedMemory,
    rankLE a b → rankLE b c → rankLE a c := by
  intro a b c hab hbc
  simp only [rankLE, decide_eq_true_eq] at *
  exact le_trans hbc hab

theorem rankLE_total : ∀ a b : RetrievedMemory,
    rankLE a b || rankLE b a := by
  intro a b
  simp only [rankLE, Bool.or_eq_true, decide_eq_true_eq]
  exact le_total b.score a.score

/-- The messages of the scored list are exactly the candidates with a
non-null embedding, in order. -/
theorem scoredList_map_message (r : MemoryRetriever) (sim : List Rat → Rat)
    (decayAt : Int → Rat) (now : Int) (candidates : List Message) :
    (scoredList r sim decayAt now candidates).map (fun x => x.message)
      = candidates.filter (fun m => m.embedding.isSome) := by
  induction candidates with
  | nil => rfl
  | cons m rest ih =>
      cases h : m.embedding with
      | none =>
          simp [scoredList, List.filterMap_cons, scoreCandidate, h,
            List.filter_cons] at ih ⊢
          exact ih
      | some emb =>
          simp [scoredList, List.filterMap_cons, scoreCandidate, h,
            List.filter_cons] at ih ⊢
          exact ih

theorem scoredList_length (r : MemoryRetriever) (sim : List Rat → Rat)
    (decayAt : Int → Rat) (now : Int) (candidates : List Message) :
    (scoredList r sim decayAt now candidates).length
      = (candidates.filter (fun m => m.embedding.isSome)).length := by
  have h := scoredList_map_message r sim decayAt now candidates
  calc (scoredList r sim decayAt now candidates).length
      = ((scoredList r sim decayAt now candidates).map
          (fun x => x.message)).length := (List.length_map _ _).symm
    _ = (candidates.filter (fun m => m.embedding.isSome)).length := by rw [h]

/-- **C1.** For every query embedding (through any similarity and decay
functions), every candidate list and every `top_k`,
`MemoryRetriever.rank` returns (i) a list whose messages form a
sub-permutation of the input candidates - a subset with each input
occurrence used at most once -, (ii) of length
`min(top_k, number of candidates with a non-null embedding)`, (iii) with
scores in non-increasing order. -/
theorem rank_subperm_length_sorted (r : MemoryRetriever)
    (sim : List Rat → Rat) (decayAt : Int → Rat) (now : Int)
    (candidates : List Message) (top_k : Nat) :
    ((r.rank sim decayAt now candidates top_k).map
        (fun x => x.message)).Subperm candidates
    ∧ (r.rank sim decayAt now candidates top_k).length
        = min top_k (candidates.filter (fun m => m.embedding.isSome)).length
    ∧ (r.rank sim decayAt now candidates top_k).Pairwise
        (fun a b => b.score ≤ a.score) := by
  refine ⟨?_, ?_, ?_⟩
  · have h1 : ((r.rank sim decayAt now candidates top_k).map
        (fun x => x.message)).Sublist
        (((scoredList r sim decayAt now candidates).mergeSort rankLE).map
          (fun x => x.message)) :=
      (List.take_sublist _ _).map _
    have h2 : (((scoredList r sim decayAt now candidates).mergeSort
        rankLE).map (fun x => x.message)).Perm
        ((scoredList r sim decayAt now candidates).map
          (fun x => x.message)) :=
      (List.mergeSort_perm _ _).map _
    have h3 := scoredList_map_message r sim decayAt now candidates
    refine h1.subperm.trans (h2.subperm.trans ?_)
    rw [h3]
    exact (List.filter_sublist _).subperm
  · rw [MemoryRetriever.rank, List.length_take, List.length_mergeSort,
      scoredList_length]
  · have hs := List.sorted_mergeSort
      (fun a b c => rankLE_trans a b c)
      (fun a b => rankLE_total a b)
      (scoredList r sim decayAt now candidates)
    have ht : (r.rank sim decayAt now candidates top_k).Pairwise
        (fun a b => rankLE a b) :=
      List.Pairwise.sublist (List.take_sublist _ _) hs
    exact ht.imp (fun h => by
      simpa only [rankLE, decide_eq_true_eq] using h)

/-- The scored list on the tied candidates evaluates to the two entries
with the shared score expression. -/
theorem cex_scoredList :
    scoredList cexRetriever cexSim cexDecay 0 [cexMsg1, cexMsg2]
      = [cexEntry cexMsg1, cexEntry cexMsg2] := rfl

/-- On the tied candidates the merge sort keeps the input order. -/
theorem cex_mergeSort :
    ([cexEntry cexMsg1, cexEntry cexMsg2] :
        List RetrievedMemory).mergeSort rankLE
      = [cexEntry cexMsg1, cexEntry cexMsg2] := by
  refine List.mergeSort_of_sorted ?_
  refine List.pairwise_cons.mpr ⟨?_, List.pairwise_singleton _ _⟩
  intro y hy
  simp only [List.mem_singleton] at hy
  subst hy
  simp [rankLE, cexEntry]

/-- The ranked output keeps the input order of the tied candidates. -/
theorem cex_rank_eq :
    cexRank = [cexEntry cexMsg1, cexEntry cexMsg2] := by
  show ((scoredList cexRetriever cexSim cexDecay 0
    [cexMsg1, cexMsg2]).mergeSort rankLE).take 2 = _
  rw [cex_scoredList, cex_mergeSort]
  rfl

/-- **C7 counterexample.**  Two candidates with equal scores and equal
`created_at`: the claim puts the smaller id (1) first, but
`rank` - whose sort key is the score alone - keeps the input order and
returns id 2 first. -/
theorem rank_tiebreak_counterexample :
    cexRank.map (fun x => x.message.id) = [2, 1]
    ∧ (∀ x ∈ cexRank, ∀ y ∈ cexRank, x.score = y.score)
    ∧ cexMsg1.created_at = cexMsg2.created_at
    ∧ cexMsg2.id < cexMsg1.id := by
  refine ⟨by rw [cex_rank_eq]; rfl, ?_, rfl, by decide⟩
  intro x hx y hy
  rw [cex_rank_eq] at hx hy
  have hscore : ∀ z ∈ [cexEntry cexMsg1, cexEntry cexMsg2],
      z.score = cexScore := by
    intro z hz
    simp only [List.mem_cons, List.not_mem_nil, or_false] at hz
    rcases hz with h | h
    · rw [h]; rfl
    · rw [h]; rfl
  rw [hscore x hx, hscore y hy]

/-- **C7 (amended).**  When two scored candidates receive equal scores,
`rank`'s stable sort preserves their relative input order - the code has
no `created_at` or `id` tie-break, so the returned prefix is a function
of the candidate list including its order, not of the candidate set
alone; `rank` is exactly the `top_k`-prefix of that stable sort. -/
theorem rank_stable_on_ties (r : MemoryRetriever) (sim : List Rat → Rat)
    (decayAt : Int → Rat) (now : Int) (candidates : List Message)
    (a b : RetrievedMemory)
    (hpair : [a, b].Sublist (scoredList r sim decayAt now candidates))
    (htie : a.score = b.score) :
    [a, b].Sublist
      ((scoredList r sim decayAt now candidates).mergeSort rankLE)
    ∧ ∀ top_k, r.rank sim decayAt now candidates top_k
        = ((scoredList r sim decayAt now candidates).mergeSort
            rankLE).take top_k := by
  refine ⟨?_, fun _ => rfl⟩
  refine List.pair_sublist_mergeSort
    (fun x y z => rankLE_trans x y z)
    (fun x y => rankLE_total x y) ?_ hpair
  simp only [rankLE, htie, decide_eq_true_eq, le_refl]

/-- Witness for `rank_stable_on_ties` at the concrete tied candidates. -/
theorem rank_stable_on_ties_witness :
    ([cexEntry cexMsg1, cexEntry cexMsg2] : List RetrievedMemory).Sublist
      (scoredList cexRetriever cexSim cexDecay 0 [cexMsg1, cexMsg2])
    ∧ (cexEntry cexMsg1).score = (cexEntry cexMsg2).score
    ∧ ([cexEntry cexMsg1, cexEntry cexMsg2] :
        List RetrievedMemory).Sublist
      ((scoredList cexRetriever cexSim cexDecay 0
        [cexMsg1, cexMsg2]).mergeSort rankLE) := by
  have hsub : ([cexEntry cexMsg1, cexEntry cexMsg2] :
      List RetrievedMemory).Sublist
      (scoredList cexRetriever cexSim cexDecay 0 [cexMsg1, cexMsg2]) := by
    rw [cex_scoredList]
  exact ⟨hsub, rfl,
    (rank_stable_on_ties cexRetriever cexSim cexDecay 0
      [cexMsg1, cexMsg2] _ _ hsub rfl).1⟩

/-! ## Job claiming: C2 -/

theorem jobLE_trans : ∀ a b c : EmbeddingJob,
    MemoryRepository.jobLE a b → MemoryRepository.jobLE b c →
    MemoryRepository.jobLE a c := by
  intro a b c hab hbc
  simp only [MemoryRepository.jobLE, decide_eq_true_eq] at *
  exact le_trans hab hbc

theorem jobLE_total : ∀ a b : EmbeddingJob,
    MemoryRepository.jobLE a b || MemoryRepository.jobLE b a := by
  intro a b
  simp only [MemoryRepository.jobLE, Bool.or_eq_true, decide_eq_true_eq]
  exact le_total a.updated_at b.updated_at

/-- The selected rows sit inside the eligible rows (with
multiplicities). -/
theorem claimSelection_subperm (jobs : List EmbeddingJob)
    (limit max_attempts : Nat) (backoff now : Int) :
    (MemoryRepository.claimSelection jobs limit max_attempts backoff
      now).Subperm
      (jobs.filter
        (MemoryRepository.claimEligible max_attempts (now - backoff))) :=
  (List.take_sublist _ _).subperm.trans (List.mergeSort_perm _ _).subperm

/-- **C2.**  `claim_embedding_jobs` returns exactly the first `limit`
eligible jobs (status pending, or failed with attempts below
`max_attempts` and `updated_at` at or before `now - backoff`) in
ascending `updated_at` order, each returned with `status = running`,
`attempts` incremented by exactly one and `updated_at = now`; rows not in
the selection are stored back unchanged, the selected rows are stored
back marked.  The hypothesis is the primary-key invariant of the
`embedding_jobs` table: distinct rows have distinct ids. -/
theorem claim_embedding_jobs_spec (jobs : List EmbeddingJob)
    (limit max_attempts : Nat) (backoff now : Int)
    (hnd : (jobs.map (fun j => j.id)).Nodup) :
    (MemoryRepository.claim_embedding_jobs jobs limit max_attempts
        backoff now).1
      = (MemoryRepository.claimSelection jobs limit max_attempts backoff
          now).map (MemoryRepository.markRunning now)
    ∧ (∀ j ∈ MemoryRepository.claimSelection jobs limit max_attempts
          backoff now,
        MemoryRepository.claimEligible max_attempts (now - backoff) j)
    ∧ (MemoryRepository.claimSelection jobs limit max_attempts backoff
        now).Pairwise (fun a b => a.updated_at ≤ b.updated_at)
    ∧ (MemoryRepository.claimSelection jobs limit max_attempts backoff
        now).length
      = min limit
          (jobs.filter (MemoryRepository.claimEligible max_attempts
            (now - backoff))).length
    ∧ (∀ j ∈ (MemoryRepository.claim_embedding_jobs jobs limit
          max_attempts backoff now).1, j.status = "running")
    ∧ (∀ j ∈ (MemoryRepository.claim_embedding_jobs jobs limit
          max_attempts backoff now).1, j.updated_at = now)
    ∧ ((MemoryRepository.claim_embedding_jobs jobs limit max_attempts
          backoff now).1.map (fun j => j.attempts)
        = (MemoryRepository.claimSelection jobs limit max_attempts
            backoff now).map (fun j => j.attempts + 1))
    ∧ (∀ j ∈ jobs,
        j ∉ MemoryRepository.claimSelection jobs limit max_attempts
          backoff now →
        j ∈ (MemoryRepository.claim_embedding_jobs jobs limit
          max_attempts backoff now).2)
    ∧ (∀ j ∈ MemoryRepository.claimSelection jobs limit max_attempts
          backoff now,
        MemoryRepository.markRunning now j
          ∈ (MemoryRepository.claim_embedding_jobs jobs limit
              max_attempts backoff now).2) := by
  have hsubperm := claimSelection_subperm jobs limit max_attempts backoff now
  have hsel_mem : ∀ j ∈ MemoryRepository.claimSelection jobs limit
      max_attempts backoff now,
      j ∈ jobs.filter (MemoryRepository.claimEligible max_attempts
        (now - backoff)) :=
    fun j hj => hsubperm.subset hj
  have hinj : ∀ x ∈ jobs, ∀ y ∈ jobs, x.id = y.id → x = y := by
    intro x hx y hy hxy
    exact List.inj_on_of_nodup_map hnd hx hy hxy
  refine ⟨rfl, ?_, ?_, ?_, ?_, ?_, ?_, ?_, ?_⟩
  · intro j hj
    exact (List.mem_filter.mp (hsel_mem j hj)).2
  · have hs := List.sorted_mergeSort
      (fun a b c => jobLE_trans a b c)
      (fun a b => jobLE_total a b)
      (jobs.filter (MemoryRepository.claimEligible max_attempts
        (now - backoff)))
    have ht : (MemoryRepository.claimSelection jobs limit max_attempts
        backoff now).Pairwise (fun a b => MemoryRepository.jobLE a b) :=
      List.Pairwise.sublist (List.take_sublist _ _) hs
    exact ht.imp (fun h => by
      simpa only [MemoryRepository.jobLE, decide_eq_true_eq] using h)
  · rw [MemoryRepository.claimSelection, List.length_take,
      List.length_mergeSort]
  · intro j hj
    rcases List.mem_map.mp hj with ⟨x, _, hx⟩
    rw [← hx]
    rfl
  · intro j hj
    rcases List.mem_map.mp hj with ⟨x, _, hx⟩
    rw [← hx]
    rfl
  · show ((MemoryRepository.claimSelection jobs limit max_attempts
        backoff now).map (MemoryRepository.markRunning now)).map
          (fun j => j.attempts)
      = (MemoryRepository.claimSelection jobs limit max_attempts
          backoff now).map (fun j => j.attempts + 1)
    rw [List.map_map]
    rfl
  · intro j hj hnotsel
    have hid : ((MemoryRepository.claimSelection jobs limit max_attempts
        backoff now).map (fun x => x.id)).contains j.id = false := by
      by_contra hc
      rw [Bool.not_eq_false, List.contains_eq_any_beq, List.any_eq_true] at hc
      rcases hc with ⟨i, hi, hbeq⟩
      rcases List.mem_map.mp hi with ⟨x, hxsel, hxid⟩
      have hxj : x.id = j.id := by
        rw [← hxid] at hbeq
        exact (eq_of_beq hbeq).symm
      have hxjobs : x ∈ jobs :=
        (List.mem_filter.mp (hsel_mem x hxsel)).1
      have : x = j := hinj x hxjobs j hj hxj
      rw [this] at hxsel
      exact hnotsel hxsel
    show j ∈ jobs.map (fun x =>
      if ((MemoryRepository.claimSelection jobs limit max_attempts
        backoff now).map (fun y => y.id)).contains x.id then
        MemoryRepository.markRunning now x else x)
    refine List.mem_map.mpr ⟨j, hj, ?_⟩
    rw [hid]
    rfl
  · intro j hj
    have hjobs : j ∈ jobs := (List.mem_filter.mp (hsel_mem j hj)).1
    have hid : ((MemoryRepository.claimSelection jobs limit max_attempts
        backoff now).map (fun x => x.id)).contains j.id = true := by
      rw [List.contains_eq_any_beq, List.any_eq_true]
      exact ⟨j.id, List.mem_map.mpr ⟨j, hj, rfl⟩, by simp⟩
    show MemoryRepository.markRunning now j ∈ jobs.map (fun x =>
      if ((MemoryRepository.claimSelection jobs limit max_attempts
        backoff now).map (fun y => y.id)).contains x.id then
        MemoryRepository.markRunning now x else x)
    refine List.mem_map.mpr ⟨j, hjobs, ?_⟩
    rw [hid]
    rfl

/-- Witness for `claim_embedding_jobs_spec`: a three-row job table with a
pending job, a stale failed job and a completed job. -/
theorem claim_embedding_jobs_spec_witness :
    (([⟨1, 11, "pending", 0, none, 5⟩,
       ⟨2, 12, "failed", 1, some "boom", 0⟩,
       ⟨3, 13, "completed", 1, none, 2⟩] :
        List EmbeddingJob).map (fun j => j.id)).Nodup
    ∧ (∀ j ∈ (MemoryRepository.claim_embedding_jobs
        [⟨1, 11, "pending", 0, none, 5⟩,
         ⟨2, 12, "failed", 1, some "boom", 0⟩,
         ⟨3, 13, "completed", 1, none, 2⟩] 2 3 4 100).1,
        j.status = "running") := by
  have hnd : (([⟨1, 11, "pending", 0, none, 5⟩,
      ⟨2, 12, "failed", 1, some "boom", 0⟩,
      ⟨3, 13, "completed", 1, none, 2⟩] :
       List EmbeddingJob).map (fun j => j.id)).Nodup := by decide
  exact ⟨hnd,
    (claim_embedding_jobs_spec
      [⟨1, 11, "pending", 0, none, 5⟩,
       ⟨2, 12, "failed", 1, some "boom", 0⟩,
       ⟨3, 13, "completed", 1, none, 2⟩] 2 3 4 100 hnd).2.2.2.2.1⟩

/-! ## Circuit breaker: C3 -/

/-- One call preserves the breaker invariant. -/
theorem breaker_inv_step (ft : Nat) (rt : Int) (hos : Nat)
    (hhos : 1 ≤ hos) (cb : CircuitBreaker) (now : Int) (ok : Bool)
    (h : BreakerInv ft rt hos cb) :
    BreakerInv ft rt hos (cb.call now ok).2 := by
  obtain ⟨cft, crt, chos, cst, cfc, csc, cna⟩ := cb
  obtain ⟨hft, hrt, hhos2, hop, hho⟩ := h
  simp only at hft hrt hhos2 hop hho
  subst hft
  subst hrt
  subst hhos2
  cases cst <;> cases ok <;>
    simp only [CircuitBreaker.call, CircuitBreaker.recordSuccess,
      CircuitBreaker.recordFailure, CircuitBreaker.openNow,
      CircuitBreaker.close, BreakerInv] <;>
    split_ifs <;>
    simp_all <;>
    omega

/-- Every reachable breaker state satisfies the invariant. -/
theorem breaker_inv_reachable (ft : Nat) (rt : Int) (hos : Nat)
    (hhos : 1 ≤ hos) (cb : CircuitBreaker)
    (hreach : CircuitBreaker.Reachable ft rt hos cb) :
    BreakerInv ft rt hos cb := by
  induction hreach with
  | init now =>
      refine ⟨rfl, rfl, rfl, ?_, ?_⟩ <;> intro h <;> cases h
  | step cb now ok _ ih =>
      exact breaker_inv_step ft rt hos hhos cb now ok ih

/-- A successful call on a closed breaker leaves it closed. -/
theorem call_closed_success (cb : CircuitBreaker) (now : Int)
    (h : cb.state = .closed) : (cb.call now true).2.state = .closed := by
  obtain ⟨cft, crt, chos, cst, cfc, csc, cna⟩ := cb
  simp only at h
  subst h
  simp [CircuitBreaker.call, CircuitBreaker.recordSuccess]

/-- Successful calls keep a closed breaker closed. -/
theorem iterateSuccess_closed (now : Int) :
    ∀ (k : Nat) (cb : CircuitBreaker), cb.state = .closed →
    (cb.iterateSuccess now k).state = .closed := by
  intro k
  induction k with
  | zero => intro cb h; exact h
  | succ n ih =>
      intro cb h
      exact ih (cb.call now true).2 (call_closed_success cb now h)

/-- A successful call on a half-open breaker never short-circuits: it
records the success. -/
theorem call_halfOpen_true (cb : CircuitBreaker) (now : Int)
    (h : cb.state = .halfOpen) :
    cb.call now true = (.success, cb.recordSuccess) := by
  obtain ⟨cft, crt, chos, cst, cfc, csc, cna⟩ := cb
  simp only at h
  subst h
  simp [CircuitBreaker.call]

/-- A failing call on a half-open breaker never short-circuits: it
records the failure (and re-raises). -/
theorem call_halfOpen_false (cb : CircuitBreaker) (now : Int)
    (h : cb.state = .halfOpen) :
    cb.call now false = (.failure, cb.recordFailure now) := by
  obtain ⟨cft, crt, chos, cst, cfc, csc, cna⟩ := cb
  simp only at h
  subst h
  simp [CircuitBreaker.call]

/-- From a half-open breaker, enough consecutive successes close it:
`k` successes with `half_open_successes ≤ success_count + k` reach
`closed`. -/
theorem halfOpen_run_to_closed (hos : Nat) (now : Int) :
    ∀ (k : Nat) (cb : CircuitBreaker), cb.state = .halfOpen →
    cb.half_open_successes = hos → 1 ≤ k →
    hos ≤ cb.success_count + k →
    (cb.iterateSuccess now k).state = .closed := by
  intro k
  induction k with
  | zero => intro cb _ _ hk; cases hk
  | succ n ih =>
      intro cb hst hcfg _ hcount
      have hnext : (cb.call now true).2 = cb.recordSuccess := by
        rw [call_halfOpen_true cb now hst]
      show ((cb.call now true).2.iterateSuccess now n).state = .closed
      rw [hnext]
      obtain ⟨cft, crt, chos, cst, cfc, csc, cna⟩ := cb
      simp only at hst hcfg hcount
      subst hst
      subst hcfg
      by_cases hclose : chos ≤ csc + 1
      · have hclosed :
            (CircuitBreaker.recordSuccess ⟨cft, crt, chos, .halfOpen, cfc,
              csc, cna⟩).state = .closed := by
          simp [CircuitBreaker.recordSuccess, CircuitBreaker.close, hclose]
        exact iterateSuccess_closed now n _ hclosed
      · have hrec :
            CircuitBreaker.recordSuccess ⟨cft, crt, chos, .halfOpen, cfc,
              csc, cna⟩
            = ⟨cft, crt, chos, .halfOpen, cfc, csc + 1, cna⟩ := by
          simp [CircuitBreaker.recordSuccess, CircuitBreaker.close, hclose]
        rw [hrec]
        have hn : 1 ≤ n := by omega
        exact ih ⟨cft, crt, chos, .halfOpen, cfc, csc + 1, cna⟩ rfl rfl hn
          (by simp only; omega)

/-- **C3.**  The breaker realises
closed → open → half_open → closed.  For every reachable state of a
breaker configured with `failure_threshold = ft`,
`recovery_time = rt` and `half_open_successes = hos ≥ 1`, and every call
time `now`: in `closed`, a failure increments the consecutive-failure
count, opening the breaker exactly when the count reaches `ft` (with
`next_attempt_at = now + rt`), and a success resets the count; in
`open` before `next_attempt_at`, every call short-circuits with
CircuitOpen and changes nothing; in `open` at or past `next_attempt_at`,
the wrapped function is invoked under half-open rules: a success starts
the success streak at 1 (closing immediately iff `hos = 1`), a failure
re-opens with a fresh recovery window; in `half_open`, a success closes
the breaker exactly when the streak reaches `hos`, and a single failure
re-opens it; finally, from an expired open state, `hos` consecutive
successes close the breaker. -/
theorem circuit_breaker_machine (ft : Nat) (rt : Int) (hos : Nat)
    (hhos : 1 ≤ hos) (cb : CircuitBreaker)
    (hreach : CircuitBreaker.Reachable ft rt hos cb) (now : Int) :
    (cb.state = .closed →
      (cb.call now false).2.failure_count = cb.failure_count + 1
      ∧ ((cb.call now false).2.state = .opened ↔ ft ≤ cb.failure_count + 1)
      ∧ (ft ≤ cb.failure_count + 1 →
          (cb.call now false).2.next_attempt_at = now + rt)
      ∧ (¬ ft ≤ cb.failure_count + 1 → (cb.call now false).2.state = .closed)
      ∧ (cb.call now true).2.failure_count = 0
      ∧ (cb.call now true).2.state = .closed)
    ∧ (cb.state = .opened → now < cb.next_attempt_at →
        ∀ ok, (cb.call now ok).1 = .circuitOpen ∧ (cb.call now ok).2 = cb)
    ∧ (cb.state = .opened → cb.next_attempt_at ≤ now →
        ((cb.call now true).1 = .success
          ∧ (cb.call now true).2.success_count
              = (if hos ≤ 1 then 0 else 1)
          ∧ ((cb.call now true).2.state = .closed ↔ hos ≤ 1)
          ∧ (¬ hos ≤ 1 → (cb.call now true).2.state = .halfOpen))
        ∧ ((cb.call now false).1 = .failure
          ∧ (cb.call now false).2.state = .opened
          ∧ (cb.call now false).2.next_attempt_at = now + rt))
    ∧ (cb.state = .halfOpen →
        ((cb.call now true).1 = .success
          ∧ ((cb.call now true).2.state = .closed
              ↔ hos ≤ cb.success_count + 1)
          ∧ (¬ hos ≤ cb.success_count + 1 →
              (cb.call now true).2.state = .halfOpen
              ∧ (cb.call now true).2.success_count = cb.success_count + 1))
        ∧ ((cb.call now false).1 = .failure
          ∧ (cb.call now false).2.state = .opened
          ∧ (cb.call now false).2.next_attempt_at = now + rt))
    ∧ (cb.state = .opened → cb.next_attempt_at ≤ now →
        (cb.iterateSuccess now hos).state = .closed) := by
  have hinv := breaker_inv_reachable ft rt hos hhos cb hreach
  obtain ⟨cft, crt, chos, cst, cfc, csc, cna⟩ := cb
  obtain ⟨hft, hrt, hhos2, hop, hho⟩ := hinv
  simp only at hft hrt hhos2 hop hho
  subst hft
  subst hrt
  subst hhos2
  refine ⟨?_, ?_, ?_, ?_, ?_⟩
  · intro hst
    simp only at hst
    subst hst
    refine ⟨?_, ?_, ?_, ?_, ?_, ?_⟩ <;>
      simp only [CircuitBreaker.call, CircuitBreaker.recordFailure,
        CircuitBreaker.recordSuccess, CircuitBreaker.openNow,
        CircuitBreaker.close] <;>
      split_ifs <;>
      simp_all
  · intro hst hlt ok
    simp only at hst hlt
    subst hst
    constructor <;>
      simp [CircuitBreaker.call, hlt]
  · intro hst hge
    simp only at hst hge
    subst hst
    obtain ⟨hfc, hsc0⟩ := hop rfl
    have hsc : csc = 0 := hsc0
    subst hsc
    have hnotlt : ¬ now < cna := not_lt.mpr hge
    refine ⟨⟨?_, ?_, ?_, ?_⟩, ?_, ?_, ?_⟩ <;>
      simp only [CircuitBreaker.call, CircuitBreaker.recordFailure,
        CircuitBreaker.recordSuccess, CircuitBreaker.openNow,
        CircuitBreaker.close, hnotlt] <;>
      split_ifs <;>
      simp_all <;>
      omega
  · intro hst
    simp only at hst
    subst hst
    obtain ⟨hfc, hsclt⟩ := hho rfl
    have hct := call_halfOpen_true _ now (rfl :
      (⟨cft, crt, chos, CBState.halfOpen, cfc, csc, cna⟩ :
        CircuitBreaker).state = .halfOpen)
    have hcf := call_halfOpen_false _ now (rfl :
      (⟨cft, crt, chos, CBState.halfOpen, cfc, csc, cna⟩ :
        CircuitBreaker).state = .halfOpen)
    refine ⟨⟨?_, ?_, ?_⟩, ?_, ?_, ?_⟩
    · rw [hct]
    · rw [hct]
      simp only [CircuitBreaker.recordSuccess]
      rw [if_pos trivial]
      split_ifs with h
      · simp only [CircuitBreaker.close]
        exact iff_of_true trivial h
      · exact iff_of_false (by simp) h
    · intro h
      rw [hct]
      simp only [CircuitBreaker.recordSuccess]
      rw [if_pos trivial, if_neg (show ¬ chos ≤ csc + 1 from h)]
      exact ⟨rfl, rfl⟩
    · rw [hcf]
    · rw [hcf]
      simp only [CircuitBreaker.recordFailure]
      rw [if_pos (show cft ≤ cfc + 1 by omega)]
      rfl
    · rw [hcf]
      simp only [CircuitBreaker.recordFailure]
      rw [if_pos (show cft ≤ cfc + 1 by omega)]
      rfl
  · intro hst hge
    simp only at hst hge
    subst hst
    obtain ⟨hfc, hsc0⟩ := hop rfl
    have hsc : csc = 0 := hsc0
    subst hsc
    have hnotlt : ¬ now < cna := not_lt.mpr hge
    obtain ⟨m, hm⟩ : ∃ m, chos = m + 1 := ⟨chos - 1, by omega⟩
    subst hm
    show ((CircuitBreaker.call _ now true).2.iterateSuccess now m).state
      = .closed
    have hcall :
        (CircuitBreaker.call ⟨cft, crt, m + 1, .opened, cfc, 0, cna⟩
          now true).2
        = CircuitBreaker.recordSuccess
            ⟨cft, crt, m + 1, .halfOpen, cfc, 0, cna⟩ := by
      simp [CircuitBreaker.call, hnotlt]
    rw [hcall]
    by_cases hm1 : m = 0
    · subst hm1
      have hclosed :
          (CircuitBreaker.recordSuccess
            ⟨cft, crt, 1, .halfOpen, cfc, 0, cna⟩).state = .closed := by
        simp [CircuitBreaker.recordSuccess, CircuitBreaker.close]
      exact iterateSuccess_closed now 0 _ hclosed
    · have hrec :
          CircuitBreaker.recordSuccess
            ⟨cft, crt, m + 1, .halfOpen, cfc, 0, cna⟩
          = ⟨cft, crt, m + 1, .halfOpen, cfc, 1, cna⟩ := by
        simp [CircuitBreaker.recordSuccess, CircuitBreaker.close]
        omega
      rw [hrec]
      exact halfOpen_run_to_closed (m + 1) now m
        ⟨cft, crt, m + 1, .halfOpen, cfc, 1, cna⟩ rfl rfl
        (by omega) (by simp only; omega)

/-- Witness for `circuit_breaker_machine` at the default configuration
`(5, 30, 2)` on the freshly initialised breaker. -/
theorem circuit_breaker_machine_witness :
    (1 ≤ 2
      ∧ CircuitBreaker.Reachable 5 30 2 (CircuitBreaker.init 5 30 2 0))
    ∧ ((CircuitBreaker.init 5 30 2 0).state = .closed →
        ((CircuitBreaker.init 5 30 2 0).call 7 true).2.state = .closed) := by
  refine ⟨⟨by decide, CircuitBreaker.Reachable.init 0⟩, ?_⟩
  intro h
  exact (circuit_breaker_machine 5 30 2 (by decide)
    (CircuitBreaker.init 5 30 2 0)
    (CircuitBreaker.Reachable.init 0) 7).1 h |>.2.2.2.2.2

/-! ## Embedding service: C4 -/

/-- **C4.**  `CircuitBreakerEmbeddingService.embed` never propagates a
primary failure: when the breaker short-circuits (open and before
`next_attempt_at`) the result is the fallback vector and the breaker is
untouched (the primary is not invoked); otherwise a primary success
returns the primary's vector and a primary failure returns the fallback
vector. -/
theorem cbEmbed_dispatch (primary : String → Option (List Rat))
    (fallback : String → List Rat) (cb : CircuitBreaker) (now : Int)
    (text : String) :
    ((cbEmbed primary fallback cb now text).1
      = if cb.state = .opened ∧ now < cb.next_attempt_at then fallback text
        else
          match primary text with
          | some v => v
          | none => fallback text)
    ∧ (cb.state = .opened ∧ now < cb.next_attempt_at →
        (cbEmbed primary fallback cb now text).2 = cb) := by
  constructor
  · by_cases hsc : cb.state = .opened ∧ now < cb.next_attempt_at
    · cases hp : primary text <;>
        simp [cbEmbed, CircuitBreaker.call, hsc, hp]
    · cases hp : primary text <;>
        simp [cbEmbed, CircuitBreaker.call, hsc, hp]
  · intro hsc
    cases hp : primary text <;>
      simp [cbEmbed, CircuitBreaker.call, hsc, hp]

/-- Witness for `cbEmbed_dispatch`: an open breaker inside its recovery
window short-circuits and the caller still receives the fallback
vector. -/
theorem cbEmbed_dispatch_witness :
    ((⟨5, 30, 2, .opened, 5, 0, 100⟩ : CircuitBreaker).state = .opened
      ∧ (50 : Int) < (⟨5, 30, 2, .opened, 5, 0, 100⟩ :
          CircuitBreaker).next_attempt_at)
    ∧ (cbEmbed (fun _ => none) (fun _ => [1])
        ⟨5, 30, 2, .opened, 5, 0, 100⟩ 50 "hello").2
      = ⟨5, 30, 2, .opened, 5, 0, 100⟩ := by
  have hsc : (⟨5, 30, 2, .opened, 5, 0, 100⟩ :
      CircuitBreaker).state = .opened
      ∧ (50 : Int) < (⟨5, 30, 2, .opened, 5, 0, 100⟩ :
          CircuitBreaker).next_attempt_at := ⟨rfl, by decide⟩
  exact ⟨hsc,
    (cbEmbed_dispatch (fun _ => none) (fun _ => [1])
      ⟨5, 30, 2, .opened, 5, 0, 100⟩ 50 "hello").2 hsc⟩

/-! ## Archival: C5 -/

/-- An unarchived message, used to exercise the archival path twice. -/
def cexArcMsg : Message :=
  ⟨7, "t1", "c1", "user", "hi", [], none, none, "completed", 0, 0, false⟩

/-- A store holding only `cexArcMsg`. -/
def cexArchS0 : Store := ⟨[cexArcMsg], [], [], [], []⟩

/-- The store after one repository-level `move_to_archive`. -/
def cexArchS1 : Store :=
  (MemoryRepository.move_to_archive cexArchS0 [cexArcMsg] "policy" 10).2

/-- The store after a second repository-level `move_to_archive` on the
same message (a retry). -/
def cexArchS2 : Store :=
  (MemoryRepository.move_to_archive cexArchS1 [cexArcMsg] "policy" 20).2

/-- **C5 counterexample.**  `MemoryRepository.move_to_archive` has no
twin-existence check: running it twice on the same message leaves two
ArchivedMessage twins with that id in the session (on a real database the
second flush violates the archive's primary key), refuting both
"insert only if no twin exists" and "applying twice inserts each twin
exactly once". -/
theorem move_to_archive_counterexample :
    (cexArchS1.archive.filter (fun a => a.id == cexArcMsg.id)).length = 1
    ∧ (cexArchS2.archive.filter (fun a => a.id == cexArcMsg.id)).length
        = 2 := by
  exact ⟨rfl, rfl⟩

/-- A twin added earlier in the loop (or pre-existing) stays in the
archive. -/
theorem archiveLoop_any_mono (now : Int) (reason : String)
    (p : ArchivedMessage → Bool) :
    ∀ (msgs : List Message) (archive : List ArchivedMessage),
    archive.any p = true →
    ((AdvancedRetentionService.archiveLoop now reason msgs
      archive).1).any p = true := by
  intro msgs
  induction msgs with
  | nil => intro archive h; exact h
  | cons m rest ih =>
      intro archive h
      simp only [AdvancedRetentionService.archiveLoop]
      split_ifs with hskip
      · exact ih archive h
      · exact ih _ (by rw [List.any_append, h]; rfl)

/-- After the loop, every input message has a twin in the archive. -/
theorem archiveLoop_covers (now : Int) (reason : String) :
    ∀ (msgs : List Message) (archive : List ArchivedMessage),
    ∀ m ∈ msgs,
    ((AdvancedRetentionService.archiveLoop now reason msgs
      archive).1).any (fun a => a.id == m.id) = true := by
  intro msgs
  induction msgs with
  | nil => intro archive m hm; cases hm
  | cons m0 rest ih =>
      intro archive m hm
      simp only [AdvancedRetentionService.archiveLoop]
      rcases List.mem_cons.mp hm with hm0 | hrest
      · subst hm0
        split_ifs with hskip
        · exact archiveLoop_any_mono now reason _ rest archive hskip
        · refine archiveLoop_any_mono now reason _ rest _ ?_
          rw [List.any_append]
          have : (MemoryRepository.toArchived now reason m).id = m.id := rfl
          simp [this]
      · split_ifs with hskip
        · exact ih archive m hrest
        · exact ih _ m hrest

/-- The loop never inserts a twin whose id is already present: primary
key uniqueness of the archive is preserved. -/
theorem archiveLoop_nodup (now : Int) (reason : String) :
    ∀ (msgs : List Message) (archive : List ArchivedMessage),
    (archive.map (fun a => a.id)).Nodup →
    (((AdvancedRetentionService.archiveLoop now reason msgs
      archive).1).map (fun a => a.id)).Nodup := by
  intro msgs
  induction msgs with
  | nil => intro archive h; exact h
  | cons m rest ih =>
      intro archive h
      simp only [AdvancedRetentionService.archiveLoop]
      split_ifs with hskip
      · exact ih archive h
      · refine ih _ ?_
        rw [List.map_append]
        refine List.Nodup.append h (by simp) ?_
        intro x hx hx2
        simp only [List.map_cons, List.map_nil, List.mem_singleton] at hx2
        subst hx2
        rw [Bool.not_eq_true, List.any_eq_false] at hskip
        rcases List.mem_map.mp hx with ⟨a, ha, haid⟩
        exact hskip a ha (beq_iff_eq.mpr haid)

/-- When every input message already has a twin, the loop does nothing. -/
theorem archiveLoop_skip_all (now : Int) (reason : String) :
    ∀ (msgs : List Message) (archive : List ArchivedMessage),
    (∀ m ∈ msgs, archive.any (fun a => a.id == m.id) = true) →
    AdvancedRetentionService.archiveLoop now reason msgs archive
      = (archive, [], 0) := by
  intro msgs
  induction msgs with
  | nil => intro archive _; rfl
  | cons m rest ih =>
      intro archive h
      simp only [AdvancedRetentionService.archiveLoop]
      rw [if_pos (h m (List.mem_cons_self m rest))]
      exact ih archive (fun x hx => h x (List.mem_cons_of_mem m hx))

/-- A message with no pre-existing twin gets its id recorded for the
`archived = true` flip. -/
theorem archiveLoop_ids (now : Int) (reason : String) :
    ∀ (msgs : List Message) (archive : List ArchivedMessage),
    ∀ m ∈ msgs, archive.any (fun a => a.id == m.id) = false →
    m.id ∈ (AdvancedRetentionService.archiveLoop now reason msgs
      archive).2.1 := by
  intro msgs
  induction msgs with
  | nil => intro archive m hm; cases hm
  | cons m0 rest ih =>
      intro archive m hm hno
      simp only [AdvancedRetentionService.archiveLoop]
      rcases List.mem_cons.mp hm with hm0 | hrest
      · subst hm0
        rw [if_neg (by rw [hno]; exact Bool.false_ne_true)]
        exact List.mem_cons_self _ _
      · split_ifs with hskip
        · exact ih archive m hrest hno
        · show m.id ∈ m0.id :: (AdvancedRetentionService.archiveLoop now
            reason rest (archive ++
              [MemoryRepository.toArchived now reason m0])).2.1
          by_cases hid : m.id = m0.id
          · rw [hid]
            exact List.mem_cons_self _ _
          · refine List.mem_cons_of_mem _ (ih _ m hrest ?_)
            rw [List.any_append, hno]
            simp only [Bool.false_or, List.any_cons, List.any_nil,
              Bool.or_false]
            have htwin : (MemoryRepository.toArchived now reason m0).id
                = m0.id := rfl
            rw [htwin]
            exact beq_eq_false_iff_ne.mpr (fun hh => hid hh.symm)

/-- **C5 (amended).**  The twin-existence check lives in
`AdvancedRetentionService._archive_messages`, the archival path of the
rule engine: starting from an archive with unique ids it inserts each
twin at most once (ids stay unique), after the call every input message
has a twin, a message that had no twin gets `archived = true`, and a
second application to the same messages inserts nothing and returns
count 0 with the store unchanged. -/
theorem archive_messages_idempotent (s : Store) (msgs : List Message)
    (reason reason2 : String) (now now2 : Int)
    (hnd : (s.archive.map (fun a => a.id)).Nodup) :
    (((AdvancedRetentionService.archiveMessages s msgs reason
        now).2.archive).map (fun a => a.id)).Nodup
    ∧ (∀ m ∈ msgs,
        ((AdvancedRetentionService.archiveMessages s msgs reason
          now).2.archive).any (fun a => a.id == m.id) = true)
    ∧ (∀ m ∈ msgs, s.archive.any (fun a => a.id == m.id) = false →
        ∀ msg ∈ (AdvancedRetentionService.archiveMessages s msgs reason
          now).2.messages, msg.id = m.id → msg.archived = true)
    ∧ AdvancedRetentionService.archiveMessages
        (AdvancedRetentionService.archiveMessages s msgs reason now).2
        msgs reason2 now2
      = (0, (AdvancedRetentionService.archiveMessages s msgs reason
          now).2) := by
  refine ⟨?_, ?_, ?_, ?_⟩
  · exact archiveLoop_nodup now reason msgs s.archive hnd
  · exact archiveLoop_covers now reason msgs s.archive
  · intro m hm hno msg hmsg hid
    have hids := archiveLoop_ids now reason msgs s.archive m hm hno
    rcases List.mem_map.mp hmsg with ⟨x, hx, hxeq⟩
    by_cases hc : ((AdvancedRetentionService.archiveLoop now reason msgs
        s.archive).2.1).contains x.id
    · rw [if_pos hc] at hxeq
      rw [← hxeq]
    · rw [if_neg hc] at hxeq
      exfalso
      apply hc
      have hxid : x.id = m.id := by rw [hxeq, hid]
      rw [hxid]
      exact List.elem_eq_true_of_mem hids
  · have hskip := archiveLoop_skip_all now2 reason2 msgs
      ((AdvancedRetentionService.archiveLoop now reason msgs
        s.archive).1)
      (archiveLoop_covers now reason msgs s.archive)
    show AdvancedRetentionService.archiveMessages
      ⟨s.messages.map _, (AdvancedRetentionService.archiveLoop now reason
        msgs s.archive).1, s.policies, s.rules, s.conversations⟩
      msgs reason2 now2 = _
    simp only [AdvancedRetentionService.archiveMessages, hskip]
    refine congrArg (Prod.mk 0) ?_
    refine congrArg (fun l => Store.mk l _ _ _ _) ?_
    have hmapid : ∀ (l : List Message),
        (l.map fun m =>
          if ([] : List Nat).contains m.id then { m with archived := true }
          else m) = l := by
      intro l
      induction l with
      | nil => rfl
      | cons a rest ih => rw [List.map_cons, ih]; rfl
    exact hmapid _

/-- Witness for `archive_messages_idempotent`: archiving the single
message twice through the rule-engine path inserts its twin once. -/
theorem archive_messages_idempotent_witness :
    (cexArchS0.archive.map (fun a => a.id)).Nodup
    ∧ AdvancedRetentionService.archiveMessages
        (AdvancedRetentionService.archiveMessages cexArchS0 [cexArcMsg]
          "rule" 10).2 [cexArcMsg] "rule" 20
      = (0, (AdvancedRetentionService.archiveMessages cexArchS0
          [cexArcMsg] "rule" 10).2) := by
  have hnd : (cexArchS0.archive.map (fun a => a.id)).Nodup :=
    List.nodup_nil
  exact ⟨hnd,
    (archive_messages_idempotent cexArchS0 [cexArcMsg] "rule" "rule"
      10 20 hnd).2.2.2⟩

/-! ## Retention dry runs: C6 -/

/-- Under `dry_run = true`, `RetentionService.run` reports zeros and its
only store effect is the policy materialisation of a missing policy. -/
theorem retention_run_dry (settings : Settings) (s : Store)
    (tenant : String) (actions : Option (List String)) (now : Int) :
    RetentionService.run settings s tenant actions true now
      = (⟨0, 0⟩,
        match MemoryRepository.load_policy s tenant with
        | some _ => s
        | none =>
            (MemoryRepository.upsert_retention_policy s tenant
              settings.retention_max_age_days
              settings.retention_importance_threshold none
              settings.retention_delete_after_days now).2) := by
  cases hlp : MemoryRepository.load_policy s tenant with
  | none => simp [RetentionService.run, hlp]
  | some p => simp [RetentionService.run, hlp]

/-- A dry-run rule application leaves the store untouched. -/
theorem applyRule_dry (s : Store) (rule : RetentionRule)
    (tenant : String) (now : Int) :
    (AdvancedRetentionService.applyRule s rule tenant true now).2 = s := by
  simp only [AdvancedRetentionService.applyRule]
  cases hc : AdvancedRetentionService.ruleCandidates s rule tenant now with
  | none => rfl
  | some messages => split_ifs <;> simp_all <;> split_ifs <;> rfl

/-- A dry-run fold over the rules leaves the store untouched. -/
theorem applyRules_fold_dry (tenant : String) (now : Int) :
    ∀ (rules : List RetentionRule)
      (acc : AdvancedRetentionService.Result × Store),
    (rules.foldl (AdvancedRetentionService.applyRuleStep tenant true now)
      acc).2 = acc.2 := by
  intro rules
  induction rules with
  | nil => intro acc; rfl
  | cons r rest ih =>
      intro acc
      rw [List.foldl_cons, ih]
      show (AdvancedRetentionService.applyRule acc.2 r tenant true
        now).2 = acc.2
      exact applyRule_dry acc.2 r tenant now

/-- **C6 (amended).**  Retention with `dry_run = true` archives and
deletes nothing: the policy-based `RetentionService.run` reports
`archived = 0, deleted = 0` and leaves messages, archive, rules and
conversations untouched - and leaves the whole store untouched whenever
the tenant already has a RetentionPolicy row; when the tenant has none,
its only persisted effect is materialising (and committing) the default
policy.  The rule-based `apply_retention_rules` with `dry_run = true`
leaves the store entirely unchanged. -/
theorem retention_dry_run_frame (settings : Settings) (s : Store)
    (tenant : String) (actions : Option (List String)) (now : Int) :
    (RetentionService.run settings s tenant actions true now).1 = ⟨0, 0⟩
    ∧ (RetentionService.run settings s tenant actions true
        now).2.messages = s.messages
    ∧ (RetentionService.run settings s tenant actions true
        now).2.archive = s.archive
    ∧ (RetentionService.run settings s tenant actions true
        now).2.rules = s.rules
    ∧ (RetentionService.run settings s tenant actions true
        now).2.conversations = s.conversations
    ∧ ((MemoryRepository.load_policy s tenant).isSome →
        (RetentionService.run settings s tenant actions true now).2 = s)
    ∧ (AdvancedRetentionService.apply_retention_rules s tenant true
        now).2 = s := by
  have hrun := retention_run_dry settings s tenant actions now
  have hadv : (AdvancedRetentionService.apply_retention_rules s tenant
      true now).2 = s := by
    simp only [AdvancedRetentionService.apply_retention_rules]
    split_ifs with h
    · rfl
    · exact applyRules_fold_dry tenant now _ _
  cases hlp : MemoryRepository.load_policy s tenant with
  | none =>
      rw [hlp] at hrun
      rw [hrun]
      simp only [MemoryRepository.upsert_retention_policy, hlp]
      refine ⟨trivial, trivial, trivial, trivial, trivial, ?_, hadv⟩
      intro h
      exact absurd h (by decide)
  | some p =>
      rw [hlp] at hrun
      rw [hrun]
      exact ⟨rfl, rfl, rfl, rfl, rfl, fun _ => rfl, hadv⟩

/-- **C6 counterexample.**  For a tenant with no RetentionPolicy row,
`RetentionService.run` with `dry_run = true` persists a default policy:
a subsequent `load_policy` fetch distinguishes the store from the
initial one, refuting "no other persisted entity changes". -/
theorem retention_dry_run_counterexample :
    MemoryRepository.load_policy ⟨[], [], [], [], []⟩ "t1" = none
    ∧ ((RetentionService.run ⟨30, 0, 90⟩ ⟨[], [], [], [], []⟩ "t1" none
        true 1000).2.policies).length = 1
    ∧ (MemoryRepository.load_policy
        (RetentionService.run ⟨30, 0, 90⟩ ⟨[], [], [], [], []⟩ "t1" none
          true 1000).2 "t1")
      = some ⟨"t1", 30, 0, none, 90, 1000⟩ := by
  refine ⟨rfl, ?_, ?_⟩
  · rw [retention_run_dry]
    rfl
  · rw [retention_run_dry]
    rfl

/-- Witness for `retention_dry_run_frame`: with a policy row already
present, the dry run leaves the store unchanged. -/
theorem retention_dry_run_frame_witness :
    (MemoryRepository.load_policy
      ⟨[], [], [⟨"t1", 30, 0, none, 90, 0⟩], [], []⟩ "t1").isSome
    ∧ (RetentionService.run ⟨30, 0, 90⟩
        ⟨[], [], [⟨"t1", 30, 0, none, 90, 0⟩], [], []⟩ "t1" none true
        500).2
      = ⟨[], [], [⟨"t1", 30, 0, none, 90, 0⟩], [], []⟩ := by
  have hsome : (MemoryRepository.load_policy
      ⟨[], [], [⟨"t1", 30, 0, none, 90, 0⟩], [], []⟩ "t1").isSome := by
    rfl
  exact ⟨hsome,
    (retention_dry_run_frame ⟨30, 0, 90⟩
      ⟨[], [], [⟨"t1", 30, 0, none, 90, 0⟩], [], []⟩ "t1" none
      500).2.2.2.2.2.1 hsome⟩

/-! ## Retention scheduler: C8 -/

/-- A message of tenant `t1`. -/
def schedMsg1 : Message :=
  ⟨21, "t1", "c", "user", "a", [], none, none, "pending", 0, 0, false⟩

/-- A message of tenant `t2`. -/
def schedMsg2 : Message :=
  ⟨22, "t2", "c", "user", "b", [], none, none, "pending", 0, 0, false⟩

/-- A store with messages of two tenants and nothing else. -/
def schedStore : Store := ⟨[schedMsg1, schedMsg2], [], [], [], []⟩

/-- **C8.**  At the default configuration
`{interval = 86400, tenants = ["*"]}` over a store whose messages belong
to tenants `t1` and `t2`: `list_tenants` does observe `["t1", "t2"]`,
but `run_once` never consults it - it invokes the retention service
exactly once, literally for the tenant id `"*"` - so neither real tenant
gets a retention pass.  The disable guard of `start()` behaves as
claimed: enabled here, disabled for `interval ≤ 0` or an empty tenant
list. -/
theorem scheduler_wildcard_not_resolved :
    MemoryRepository.list_tenants schedStore = ["t1", "t2"]
    ∧ (RetentionScheduler.run_once ⟨86400, ["*"]⟩ ⟨30, 0, 90⟩ schedStore
        1000).2 = ["*"]
    ∧ RetentionScheduler.startsTask ⟨86400, ["*"]⟩ = true
    ∧ RetentionScheduler.startsTask ⟨0, ["t1"]⟩ = false
    ∧ RetentionScheduler.startsTask ⟨86400, []⟩ = false := by
  exact ⟨rfl, rfl, rfl, rfl, rfl⟩

/-! ## Rate limiter: C9 -/

/-- A rejected call changes nothing beyond the eviction: the queue still
holds `max_calls` (or more) timestamps within the window, and no
timestamp is recorded. -/
theorem hitQueue_reject {N : Nat} {w : Rat} {q : List Rat} {now : Rat}
    (h : N ≤ (q.dropWhile (fun x => decide (w < now - x))).length) :
    hitQueue N w q now
      = (false, q.dropWhile (fun x => decide (w < now - x))) := by
  simp only [hitQueue]
  rw [if_pos h]

/-- An admitted call appends its timestamp to the evicted queue. -/
theorem hitQueue_accept {N : Nat} {w : Rat} {q : List Rat} {now : Rat}
    (h : ¬ N ≤ (q.dropWhile (fun x => decide (w < now - x))).length) :
    hitQueue N w q now
      = (true, q.dropWhile (fun x => decide (w < now - x)) ++ [now]) := by
  simp only [hitQueue]
  rw [if_neg h]

/-- One step of the one-key trace. -/
theorem hitTrace_cons (N : Nat) (w : Rat) (q : List Rat) (t : Rat)
    (rest : List Rat) :
    hitTrace N w q (t :: rest)
      = ((hitQueue N w q t).1, t)
        :: hitTrace N w (hitQueue N w q t).2 rest := rfl

/-- The times of the one-key trace are the input times, in order. -/
theorem hitTrace_times (N : Nat) (w : Rat) :
    ∀ (times : List Rat) (q : List Rat),
    (hitTrace N w q times).map (fun e => e.2) = times := by
  intro times
  induction times with
  | nil => intro q; rfl
  | cons t rest ih =>
      intro q
      rw [hitTrace_cons, List.map_cons, ih]

/-- Splitting the admitted-in-window count at the head entry. -/
theorem admittedIn_cons (e : Bool × Rat) (l : List (Bool × Rat))
    (a b : Rat) :
    admittedIn (e :: l) a b
      = (if e.1 && decide (a ≤ e.2) && decide (e.2 ≤ b) then 1 else 0)
        + admittedIn l a b := by
  simp only [admittedIn, List.filter_cons]
  split_ifs with h
  · rw [List.length_cons]
    omega
  · omega

/-- When every entry's time misses the interval, nothing is counted. -/
theorem admittedIn_zero (a b : Rat) :
    ∀ (l : List (Bool × Rat)), (∀ e ∈ l, ¬ (e.2 ≤ b)) →
    admittedIn l a b = 0 := by
  intro l h
  simp only [admittedIn, List.length_eq_zero]
  rw [List.filter_eq_nil_iff]
  intro e he
  simp only [Bool.and_eq_true, decide_eq_true_eq]
  intro hand
  exact h e he hand.2

/-- The sliding-window invariant, generalised over the starting queue:
along a monotone sequence of call times, the number of admitted calls
whose time falls in `[a, a + w]`, plus the in-window timestamps already
in the queue, never exceeds `max_calls`. -/
theorem hitTrace_window_aux (N : Nat) (w a : Rat) :
    ∀ (times : List Rat) (q : List Rat),
    times.Pairwise (· ≤ ·) →
    (q.filter (fun t => decide (a ≤ t) && decide (t ≤ a + w))).length ≤ N →
    admittedIn (hitTrace N w q times) a (a + w)
      + (q.filter (fun t =>
          decide (a ≤ t) && decide (t ≤ a + w))).length ≤ N := by
  intro times
  induction times with
  | nil =>
      intro q _ hq
      simpa [hitTrace, admittedIn] using hq
  | cons t rest ih =>
      intro q hmono hq
      obtain htail := List.pairwise_cons.mp hmono
      by_cases hup : t ≤ a + w
      · -- Current time can still land in the window; evicted entries are
        -- strictly before `a` and hence out of window.
        have hdropfilter :
            (q.filter (fun x =>
              decide (a ≤ x) && decide (x ≤ a + w))).length
            = ((q.dropWhile (fun x => decide (w < t - x))).filter
                (fun x => decide (a ≤ x) && decide (x ≤ a + w))).length := by
          conv => rw [← List.takeWhile_append_dropWhile
            (p := fun x => decide (w < t - x)) (l := q)]
          rw [List.filter_append, List.length_append]
          have hnilf : ((q.takeWhile (fun x => decide (w < t - x))).filter
              (fun x => decide (a ≤ x) && decide (x ≤ a + w))) = [] := by
            rw [List.filter_eq_nil_iff]
            intro x hx
            have hpx := List.mem_takeWhile_imp hx
            simp only [decide_eq_true_eq] at hpx
            simp only [Bool.and_eq_true, decide_eq_true_eq]
            intro hand
            -- w < t - x gives x < t - w ≤ a, contradicting a ≤ x
            have hx1 : x < t - w := by linarith
            have hx2 : x < a := by linarith
            linarith [hand.1]
          rw [hnilf]
          simp
        by_cases hrej : N ≤ (q.dropWhile (fun x =>
            decide (w < t - x))).length
        · have hfst : (hitQueue N w q t).1 = false := by
            rw [hitQueue_reject hrej]
          have hsnd : (hitQueue N w q t).2
              = q.dropWhile (fun x => decide (w < t - x)) := by
            rw [hitQueue_reject hrej]
          rw [hitTrace_cons, admittedIn_cons, hfst, hsnd]
          simp only [Bool.false_and, Bool.false_eq_true, if_false]
          rw [hdropfilter] at hq ⊢
          have hih := ih (q.dropWhile (fun x => decide (w < t - x)))
            htail.2 hq
          omega
        · have hfst : (hitQueue N w q t).1 = true := by
            rw [hitQueue_accept hrej]
          have hsnd : (hitQueue N w q t).2
              = q.dropWhile (fun x => decide (w < t - x)) ++ [t] := by
            rw [hitQueue_accept hrej]
          rw [hitTrace_cons, admittedIn_cons, hfst, hsnd]
          have hlen := List.length_filter_le (fun x =>
            decide (a ≤ x) && decide (x ≤ a + w))
            (q.dropWhile (fun x => decide (w < t - x)))
          have hq2 : (((q.dropWhile (fun x => decide (w < t - x)))
              ++ [t]).filter (fun x =>
                decide (a ≤ x) && decide (x ≤ a + w))).length ≤ N := by
            rw [List.filter_append, List.length_append]
            have hsing : (([t] : List Rat).filter (fun x =>
                decide (a ≤ x) && decide (x ≤ a + w))).length ≤ 1 := by
              simp only [List.filter_cons, List.filter_nil]
              split_ifs <;> simp
            omega
          have hih := ih ((q.dropWhile (fun x => decide (w < t - x)))
            ++ [t]) htail.2 hq2
          rw [List.filter_append, List.length_append] at hih
          rw [hdropfilter] at hq ⊢
          simp only [List.filter_cons, List.filter_nil] at hih
          simp only [Bool.true_and]
          by_cases hin : a ≤ t
          · rw [if_pos (show (decide (a ≤ t) && decide (t ≤ a + w))
                = true by simp [hin, hup])] at hih
            rw [if_pos (show (decide (a ≤ t) && decide (t ≤ a + w))
                = true by simp [hin, hup])]
            simp only [List.length_cons, List.length_nil] at hih
            omega
          · rw [if_neg (show ¬ (decide (a ≤ t) && decide (t ≤ a + w))
                = true by simp [hin])] at hih
            rw [if_neg (show ¬ (decide (a ≤ t) && decide (t ≤ a + w))
                = true by simp [hin])]
            simp only [List.length_nil] at hih
            omega
      · -- The window already ended: every remaining call time exceeds
        -- `a + w`, so nothing further is counted.
        have hz : admittedIn (hitTrace N w q (t :: rest)) a (a + w) = 0 := by
          refine admittedIn_zero a (a + w) _ ?_
          intro e he
          have hmem : e.2 ∈ (t :: rest) := by
            rw [← hitTrace_times N w (t :: rest) q]
            exact List.mem_map_of_mem (fun e => e.2) he
          rcases List.mem_cons.mp hmem with h1 | h2
          · rw [h1]; exact hup
          · have := (List.pairwise_cons.mp hmono).1 e.2 h2
            intro hle
            exact hup (le_trans this hle)
        rw [hz]
        omega

/-- Looking a key up after writing a (possibly different) key's queue. -/
theorem getQueue_setQueue (key k : String) (q : List Rat) :
    ∀ (calls : List (String × List Rat)),
    getQueue (setQueue calls key q) k
      = if key = k then q else getQueue calls k := by
  intro calls
  induction calls with
  | nil =>
      by_cases h : key = k
      · subst h
        simp [setQueue, getQueue, List.lookup]
      · rw [if_neg h]
        simp only [setQueue, getQueue, List.lookup]
        rw [show (k == key) = false from
          beq_eq_false_iff_ne.mpr (Ne.symm h)]
  | cons p rest ih =>
      obtain ⟨k0, q0⟩ := p
      simp only [setQueue]
      by_cases h0 : k0 == key
      · rw [if_pos h0]
        have hk0 : k0 = key := beq_iff_eq.mp h0
        subst hk0
        by_cases h : k0 = k
        · subst h
          simp [getQueue, List.lookup]
        · rw [if_neg h]
          simp only [getQueue, List.lookup]
          rw [show (k == k0) = false from
            beq_eq_false_iff_ne.mpr (Ne.symm h)]
      · rw [if_neg (by simpa using h0)]
        by_cases h : key = k
        · subst h
          rw [if_pos rfl]
          have hk0 : ¬ k0 = key := by simpa using h0
          simp only [getQueue, List.lookup]
          rw [show (key == k0) = false from
            beq_eq_false_iff_ne.mpr (fun hh => hk0 hh.symm)]
          have := ih
          rw [if_pos rfl] at this
          exact this
        · rw [if_neg h]
          simp only [getQueue, List.lookup]
          by_cases hkk0 : k == k0
          · rw [hkk0]
          · rw [show (k == k0) = false from by simpa using hkk0]
            have := ih
            rw [if_neg h] at this
            exact this

/-- Restricting a limiter run to one key gives exactly the one-key trace
on that key's queue: queues of distinct keys are independent. -/
theorem runLimiter_key (k : String) :
    ∀ (entries : List (String × Rat)) (calls : List (String × List Rat))
      (N : Nat) (w : Rat),
    ((runLimiter ⟨N, w, calls⟩ entries).filter
        (fun e => e.2.1 == k)).map (fun e => (e.1, e.2.2))
      = hitTrace N w (getQueue calls k)
          ((entries.filter (fun e => e.1 == k)).map (fun e => e.2)) := by
  intro entries
  induction entries with
  | nil => intro calls N w; rfl
  | cons e rest ih =>
      obtain ⟨key, t⟩ := e
      intro calls N w
      show ((((RateLimiter.hit ⟨N, w, calls⟩ key t).1, key, t)
          :: runLimiter (RateLimiter.hit ⟨N, w, calls⟩ key t).2
            rest).filter (fun e => e.2.1 == k)).map (fun e => (e.1, e.2.2))
        = hitTrace N w (getQueue calls k)
            ((((key, t) :: rest).filter (fun e => e.1 == k)).map
              (fun e => e.2))
      have hstep : (RateLimiter.hit ⟨N, w, calls⟩ key t).2
          = ⟨N, w, setQueue calls key
              (hitQueue N w (getQueue calls key) t).2⟩ := rfl
      by_cases hk : (key == k) = true
      · have hkeq : key = k := beq_iff_eq.mp hk
        subst hkeq
        simp only [List.filter_cons]
        rw [if_pos hk, if_pos hk]
        simp only [List.map_cons]
        rw [hitTrace_cons]
        refine congrArg₂ List.cons rfl ?_
        rw [hstep, ih]
        rw [getQueue_setQueue]
        rw [if_pos rfl]
      · simp only [List.filter_cons]
        rw [if_neg (by simpa using hk), if_neg (by simpa using hk)]
        rw [hstep, ih]
        rw [getQueue_setQueue]
        rw [if_neg (fun hh => absurd (beq_iff_eq.mpr hh)
          (by simpa using hk))]

/-- **C9.**  For a limiter parsed from a limit string
`N/{second|minute|hour}`: over any run of `hit(key)` calls at
non-decreasing times against a fresh limiter, for every key and every
interval whose length is the parsed window, at most `N` calls on that
key are admitted within the interval; and any single call that still
finds `N` timestamps in the (evicted) window returns `False` and records
nothing. -/
theorem rate_limit_window_bound (limit : List Char) (n : Nat) (w : Rat)
    (hparse : RateLimiter.parse limit = some (n, w))
    (entries : List (String × Rat))
    (hmono : (entries.map (fun e => e.2)).Pairwise (· ≤ ·))
    (k : String) (a : Rat) :
    admittedIn (((runLimiter ⟨n, w, []⟩ entries).filter
        (fun e => e.2.1 == k)).map (fun e => (e.1, e.2.2))) a (a + w) ≤ n
    ∧ ∀ (q : List Rat) (now : Rat),
        n ≤ (q.dropWhile (fun x => decide (w < now - x))).length →
        hitQueue n w q now
          = (false, q.dropWhile (fun x => decide (w < now - x))) := by
  constructor
  · rw [runLimiter_key]
    have hsub : (((entries.filter (fun e => e.1 == k)).map
        (fun e => e.2))).Sublist (entries.map (fun e => e.2)) :=
      (List.filter_sublist entries).map _
    have hmono2 := List.Pairwise.sublist hsub hmono
    have := hitTrace_window_aux n w a
      ((entries.filter (fun e => e.1 == k)).map (fun e => e.2))
      (getQueue [] k) hmono2 (by simp [getQueue, List.lookup])
    simpa [getQueue, List.lookup] using this
  · intro q now h
    exact hitQueue_reject h

/-- Witness for `rate_limit_window_bound` at the limit string
`"2/second"`, one call on key `"k"` at time 0, and the interval
starting at 0. -/
theorem rate_limit_window_bound_witness :
    RateLimiter.parse "2/second".toList = some (2, 1)
    ∧ (([(("k" : String), (0 : Rat))]).map
        (fun e => e.2)).Pairwise (· ≤ ·)
    ∧ admittedIn (((runLimiter ⟨2, 1, []⟩ [("k", 0)]).filter
        (fun e => e.2.1 == "k")).map (fun e => (e.1, e.2.2))) 0 (0 + 1)
      ≤ 2 := by
  have hp : RateLimiter.parse "2/second".toList = some (2, 1) := by decide
  have hm : (([(("k" : String), (0 : Rat))]).map
      (fun e => e.2)).Pairwise (· ≤ ·) := List.pairwise_singleton _ _
  exact ⟨hp, hm,
    (rate_limit_window_bound "2/second".toList 2 1 hp [("k", 0)] hm
      "k" 0).1⟩

/-! ## Metadata sanitization: C10 -/

/-- A successful traversal preserves the list length. -/
theorem optTraverse_length (f : α → Option β) :
    ∀ (l : List α) (ys : List β), optTraverse f l = some ys →
    ys.length = l.length := by
  intro l
  induction l with
  | nil =>
      intro ys h
      simp only [optTraverse] at h
      cases h
      rfl
  | cons x rest ih =>
      intro ys h
      simp only [optTraverse] at h
      cases hx : f x with
      | none => rw [hx] at h; cases h
      | some y =>
          rw [hx] at h
          cases hrest : optTraverse f rest with
          | none => rw [hrest] at h; cases h
          | some zs =>
              rw [hrest] at h
              cases h
              simp only [List.length_cons, ih zs hrest]

/-- A traversal by a function whose outputs are its fixed points is
idempotent. -/
theorem optTraverse_idem (f : α → Option α)
    (hf : ∀ x y, f x = some y → f y = some y) :
    ∀ (l ys : List α), optTraverse f l = some ys →
    optTraverse f ys = some ys := by
  intro l
  induction l with
  | nil =>
      intro ys h
      simp only [optTraverse] at h
      cases h
      rfl
  | cons x rest ih =>
      intro ys h
      simp only [optTraverse] at h
      cases hx : f x with
      | none => rw [hx] at h; cases h
      | some y =>
          rw [hx] at h
          cases hrest : optTraverse f rest with
          | none => rw [hrest] at h; cases h
          | some zs =>
              rw [hrest] at h
              cases h
              simp only [optTraverse, hf x y hx, ih zs hrest]

/-- `_clean` is idempotent at every depth budget: a cleaned value passes
through cleaning unchanged. -/
theorem jclean_idem (mi ms : Nat) :
    ∀ (fuel : Nat) (v c : JVal),
    jclean mi ms fuel v = some c → jclean mi ms fuel c = some c := by
  intro fuel
  induction fuel with
  | zero => intro v c h; cases h
  | succ n ih =>
      intro v c h
      cases v with
      | null => cases h; rfl
      | bool b => cases h; rfl
      | int k => cases h; rfl
      | float q => cases h; rfl
      | unsupported t => cases h
      | str s =>
          cases h
          simp only [jclean, List.take_take, min_self]
      | arr items =>
          simp only [jclean] at h
          split_ifs at h with hlen
          cases htrav : optTraverse (jclean mi ms n) items with
          | none => rw [htrav] at h; cases h
          | some cleaned =>
              rw [htrav] at h
              cases h
              have hlen2 := optTraverse_length (jclean mi ms n)
                items cleaned htrav
              have htrav2 := optTraverse_idem (jclean mi ms n)
                (fun x y hxy => ih x y hxy) items cleaned htrav
              simp only [jclean, hlen2]
              rw [if_neg hlen, htrav2]
      | obj fields =>
          simp only [jclean] at h
          split_ifs at h with hlen
          cases htrav : optTraverse (fun p =>
              match jclean mi ms n p.2 with
              | some c => some (p.1, c)
              | none => none) fields with
          | none => rw [htrav] at h; cases h
          | some cleaned =>
              rw [htrav] at h
              cases h
              have hlen2 := optTraverse_length _ fields cleaned htrav
              have hfix : ∀ (x y : String × JVal),
                  (match jclean mi ms n x.2 with
                    | some c => some (x.1, c)
                    | none => none) = some y →
                  (match jclean mi ms n y.2 with
                    | some c => some (y.1, c)
                    | none => none) = some y := by
                intro x y hxy
                cases hx2 : jclean mi ms n x.2 with
                | none => rw [hx2] at hxy; cases hxy
                | some c2 =>
                    rw [hx2] at hxy
                    cases hxy
                    simp only [ih x.2 c2 hx2]
              have htrav2 := optTraverse_idem _ hfix fields cleaned htrav
              simp only [jclean, hlen2]
              rw [if_neg hlen, htrav2]

/-- **C10.**  `sanitize_metadata` is idempotent at the default limits:
when it succeeds with result `r`, applying it to `r` succeeds and
returns `r` unchanged. -/
theorem sanitize_metadata_idempotent (m r : List (String × JVal))
    (h : sanitize_metadata m = some r) :
    sanitize_metadata r = some r := by
  simp only [sanitize_metadata] at h ⊢
  cases hc : jclean 50 2048 4 (JVal.obj m) with
  | none => rw [hc] at h; cases h
  | some c =>
      rw [hc] at h
      cases c with
      | null => cases h
      | bool b => cases h
      | int k => cases h
      | float q => cases h
      | str s => cases h
      | arr items => cases h
      | unsupported t => cases h
      | obj fields =>
          cases h
          have hfix := jclean_idem 50 2048 4 (JVal.obj m) (JVal.obj r) hc
          rw [hfix]

/-- Witness for `sanitize_metadata_idempotent` on a small metadata
mapping. -/
theorem sanitize_metadata_idempotent_witness :
    sanitize_metadata [("k", JVal.str ['a'])]
      = some [("k", JVal.str ['a'])]
    ∧ sanitize_metadata [("k", JVal.str ['a'])]
      = some [("k", JVal.str ['a'])] := by
  have h : sanitize_metadata [("k", JVal.str ['a'])]
      = some [("k", JVal.str ['a'])] := rfl
  exact ⟨h, sanitize_metadata_idempotent _ _ h⟩

end MemoryMesh
